import Mathlib

/-!
Verification development for the vince rack scheduler.

Shallow embedding of the scheduler core of `src/rack.rs`, the patch-address
parser of `src/modules/mod.rs`, the audio blocking logic of `src/rack.rs`,
and the audio-device initialization logic of `src/rack.rs`.

Modelling conventions:
* `f32` sample values are modelled by `Val`: either the NaN sentinel or a
  rational number.  The claims under verification never depend on float
  rounding, only on NaN-ness and value identity.
* Rust `HashMap`s are modelled by association lists; the list order is the
  (unspecified) iteration order of the map, so quantifying over racks also
  quantifies over iteration orders.  `HashMap::insert` is modelled by
  `outsInsert` (replace the binding if present, append otherwise).
* A module's trait object is modelled by `Module`: its declared input count,
  its knob array (`set_knob` writes it, as in the concrete modules, e.g.
  `oscillator.rs` `set_knob`), an opaque internal state (a `Nat`), and its
  `step` function.
* The scheduler records a ghost trace: one `Call` per invocation of a
  module's `step`, and one `(scanned, materialized)` pair per iteration of
  the resolution `while` loop.  These observations are needed to state the
  claims; they do not influence control flow.
* The audio-buffer drain/mix section of `Rack::step` (rack.rs:260-301) reads
  and writes neither `outs`, `stepped` nor any knob; it is modelled
  standalone (`mixInto`, `flushAudio`) and elided from the scheduler model.
-/

namespace Vince

/-- Sample values: a float is either NaN or an ordinary number. -/
inductive Val where
| nan : Val
| num : ℚ → Val
deriving DecidableEq, Repr

/-- Model of `f32::is_nan`. -/
def Val.isNaN : Val → Bool
| Val.nan => true
| Val.num _ => false

/-- The `StepType` rate tag (Key / Audio / Video) passed to every `step`. -/
inductive StepType where
| Key : StepType
| Audio : StepType
| Video : StepType
deriving DecidableEq, Repr

/-- Port selector of a `ModuleKey` (`modules/mod.rs:161-168`). -/
inductive ModuleIOK where
| none : ModuleIOK
| input : Nat → ModuleIOK
| output : Nat → ModuleIOK
| knob : Nat → ModuleIOK
deriving DecidableEq, Repr

/-- Model of `ModuleIOK::is_knob` (`modules/mod.rs:179-181`). -/
def ModuleIOK.is_knob : ModuleIOK → Bool
| ModuleIOK.knob _ => true
| _ => false

/-- Patch endpoint key (`modules/mod.rs:183-187`). -/
structure ModuleKey where
  id : Nat
  iok : ModuleIOK
deriving DecidableEq, Repr

/-! ## Patch-address parsing (`modules/mod.rs:196-232`) -/

/-- Numeric value of a digit string (most significant digit first). -/
def digitsVal (s : List Char) : Nat :=
  s.foldl (fun a c => 10 * a + (c.toNat - 48)) 0

/-- Model of Rust `str::parse::<usize>()`: an optional leading `+`, then a
nonempty run of ASCII digits, rejecting values that overflow 64 bits. -/
def parse_usize (s : List Char) : Option Nat :=
  let t := match s with
    | '+' :: r => r
    | _ => s
  if !t.isEmpty && t.all Char.isDigit && digitsVal t < 2 ^ 64 then
    some (digitsVal t)
  else
    Option.none

/-- Model of `str::split_once('M')`: split at the first `M`, returning the
text before and after it, or `none` when no `M` occurs. -/
def split_once_M : List Char → Option (List Char × List Char)
| [] => Option.none
| c :: rest =>
  if c = 'M' then some ([], rest)
  else (split_once_M rest).map (fun p => (c :: p.1, p.2))

/-- Model of `ModuleKeyVisitor::visit_str` (`modules/mod.rs:196-232`):
split on the first `M`, parse the id; take all but the last character of the
remainder (`iok.get(..iok.len().saturating_sub(1))`); when that slice is
nonempty, parse it as the index and read the last character of the whole
string as the kind; otherwise return the whole-module placeholder.
`Option.none` models a deserialization error. -/
def visit_str (v : List Char) : Option ModuleKey :=
  match split_once_M v with
  | Option.none => Option.none
  | some (idStr, iokStr) =>
    match parse_usize idStr with
    | Option.none => Option.none
    | some id =>
      let pre := iokStr.take (iokStr.length - 1)
      if !pre.isEmpty then
        match parse_usize pre with
        | Option.none => Option.none
        | some idx =>
          match v.getLast? with
          | some t =>
            if t = 'I' then some ⟨id, ModuleIOK.input idx⟩
            else if t = 'O' then some ⟨id, ModuleIOK.output idx⟩
            else if t = 'K' then some ⟨id, ModuleIOK.knob idx⟩
            else Option.none
          | Option.none => Option.none
      else
        some ⟨id, ModuleIOK.none⟩

/-- Amended specification of the address parser, written from the corrected
claim: split on the first `M` and parse the id; a remainder of length at
most one (in particular a bare trailing `M`) yields the whole-module
placeholder; a remainder of length at least two parses all but its last
character as the index and its last character as the kind, and every other
shape is a deserialization error. -/
def parseModuleKeyAmended (v : List Char) : Option ModuleKey :=
  match split_once_M v with
  | Option.none => Option.none
  | some (idStr, rest) =>
    match parse_usize idStr with
    | Option.none => Option.none
    | some id =>
      if rest.length ≤ 1 then
        some ⟨id, ModuleIOK.none⟩
      else
        match parse_usize rest.dropLast, rest.getLast? with
        | some idx, some t =>
          if t = 'I' then some ⟨id, ModuleIOK.input idx⟩
          else if t = 'O' then some ⟨id, ModuleIOK.output idx⟩
          else if t = 'K' then some ⟨id, ModuleIOK.knob idx⟩
          else Option.none
        | _, _ => Option.none

/-! ## Modules and the output cache -/

/-- Model of a `Box<dyn Module>`: declared input arity, knob array, opaque
internal state, and the `step` implementation.  `stepF` receives the time,
the rate tag, the internal state, the knob array and the input vector, and
returns the new internal state together with the output vector. -/
structure Module where
  numInputs : Nat
  knobs : List Val
  state : Nat
  stepF : ℚ → StepType → Nat → List Val → List Val → Nat × List Val

/-- Model of `Module::set_knob` as implemented by the concrete modules
(e.g. `oscillator.rs:142-144`: `self.knobs[i] = val`). -/
def Module.set_knob (m : Module) (i : Nat) (v : Val) : Module :=
  { m with knobs := m.knobs.set i v }

/-- One invocation of a module's `step`: the internal state advances, the
output vector is returned. -/
def Module.stepCall (m : Module) (time : ℚ) (st : StepType) (ins : List Val) :
    Module × List Val :=
  let r := m.stepF time st m.state m.knobs ins
  ({ m with state := r.1 }, r.2)

/-- The flattened patch table: `(source, destination)` edges, as produced by
`Patches::iter` (`patch.rs:11-17`). -/
abbrev Patches := List (ModuleKey × ModuleKey)

/-- The `outs` cache `HashMap<ModuleKey, f32>` (`rack.rs:57-58`). -/
abbrev Outs := List (ModuleKey × Val)

/-- Lookup in the `outs` cache (`self.outs.iter().find(|o| o.0 == p.0)`). -/
def outsFind (outs : Outs) (k : ModuleKey) : Option Val :=
  (outs.find? (fun o => o.1 == k)).map (fun o => o.2)

/-- Membership test (`self.outs.iter().any(|o| o.0 == p.0)` and
`self.outs.contains_key`). -/
def outsContains (outs : Outs) (k : ModuleKey) : Bool :=
  outs.any (fun o => o.1 == k)

/-- Model of `HashMap::insert`: replace the binding when the key is present,
append it otherwise. -/
def outsInsert : Outs → ModuleKey → Val → Outs
| [], k, v => [(k, v)]
| o :: os, k, v => if o.1 = k then (k, v) :: os else o :: outsInsert os k v

/-- Record a stepped module's outputs (`rack.rs:196-201` and 238-243):
`for (i, mo) in mouts.iter().enumerate() { outs.insert((id, Output(i)), mo) }`,
with `i` starting from `start`. -/
def insertOutsFrom (id : Nat) : Outs → Nat → List Val → Outs
| outs, _, [] => outs
| outs, i, v :: vs =>
  insertOutsFrom id (outsInsert outs ⟨id, ModuleIOK.output i⟩ v) (i + 1) vs

/-- Record a stepped module's outputs starting at output index 0. -/
def insertOuts (outs : Outs) (id : Nat) (mouts : List Val) : Outs :=
  insertOutsFrom id outs 0 mouts

/-! ## The scheduler tick (`Rack::step`, `rack.rs:179-331`) -/

/-- Ghost record of one `step` invocation: the module id, the input vector
passed, and the output vector returned. -/
structure Call where
  id : Nat
  ins : List Val
  mouts : List Val
deriving DecidableEq, Repr

/-- Mutable state threaded through one tick: the module map (in iteration
order), the `outs` cache, the `stepped` id list, and the ghost call trace. -/
structure TickState where
  mods : List (ModuleKey × Module)
  outs : Outs
  stepped : List Nat
  calls : List Call

/-- Whether some patch targets the given module id
(`self.patches.iter().any(|p| p.1.id == k.id)`, `rack.rs:190-191`). -/
def hasInbound (patches : Patches) (id : Nat) : Bool :=
  patches.any (fun p => p.2.id == id)

/-- Filter of the zero-dependency pass (`rack.rs:188-192`): zero declared
inputs, or no patch at all targets the module's id. -/
def passZeroCond (patches : Patches) (k : ModuleKey) (m : Module) : Bool :=
  m.numInputs == 0 || !hasInbound patches k.id

/-- One module of the zero-dependency pass (`rack.rs:187-202`).  Note the
input vector is `vec![0.0; m.inputs()]` — zeros, not NaN. -/
def passZeroStep (patches : Patches) (time : ℚ) (st : StepType)
    (s : TickState) (km : ModuleKey × Module) : TickState :=
  if passZeroCond patches km.1 km.2 then
    let ins := List.replicate km.2.numInputs (Val.num 0)
    let r := km.2.stepCall time st ins
    { mods := s.mods ++ [(km.1, r.1)],
      outs := insertOuts s.outs km.1.id r.2,
      stepped := s.stepped ++ [km.1.id],
      calls := s.calls ++ [⟨km.1.id, ins, r.2⟩] }
  else
    { s with mods := s.mods ++ [km] }

/-- The zero-dependency pass over the whole module map. -/
def passZero (patches : Patches) (time : ℚ) (st : StepType)
    (mods : List (ModuleKey × Module)) (outs : Outs) : TickState :=
  mods.foldl (passZeroStep patches time st) ⟨[], outs, [], []⟩

/-- All patches whose destination id is the given module id
(`rack.rs:209-211`). -/
def inPatches (patches : Patches) (id : Nat) : Patches :=
  patches.filter (fun p => p.2.id == id)

/-- Readiness check (`rack.rs:212-216`): every inbound patch's source key is
present in `outs`. -/
def ready (outs : Outs) (ips : Patches) : Bool :=
  ips.all (fun p => outsContains outs p.1)

/-- Input-vector construction and knob application (`rack.rs:218-233`):
start from `vec![NAN; m.inputs()]`, then for each inbound patch, write the
cached source value at an Input position, or `set_knob` for a non-NaN value
at a Knob position; Output/None destinations only log an error. -/
def applyPatchesStep (outs : Outs) (acc : Module × List Val)
    (p : ModuleKey × ModuleKey) : Module × List Val :=
  match outsFind outs p.1 with
  | some v =>
    match p.2.iok with
    | ModuleIOK.input i => (acc.1, acc.2.set i v)
    | ModuleIOK.knob i => (if v.isNaN then acc.1 else acc.1.set_knob i v, acc.2)
    | _ => acc
  | Option.none => acc

/-- The full `for p in inpatches` loop of `rack.rs:220-233`. -/
def applyPatches (outs : Outs) (m : Module) (ips : Patches) :
    Module × List Val :=
  ips.foldl (applyPatchesStep outs) (m, List.replicate m.numInputs Val.nan)

/-- One module of a resolution scan (`rack.rs:207-246`).  The second
component is `step_count`; the increment is `+ 0`, mirroring the literal
`step_count += 0;` at `rack.rs:237`. -/
def scanStep (patches : Patches) (time : ℚ) (st : StepType)
    (s : TickState × Nat) (km : ModuleKey × Module) : TickState × Nat :=
  let ts := s.1
  if ts.stepped.contains km.1.id then
    ({ ts with mods := ts.mods ++ [km] }, s.2)
  else
    let ips := inPatches patches km.1.id
    if ready ts.outs ips then
      let ar := applyPatches ts.outs km.2 ips
      let r := ar.1.stepCall time st ar.2
      ({ mods := ts.mods ++ [(km.1, r.1)],
         outs := insertOuts ts.outs km.1.id r.2,
         stepped := ts.stepped ++ [km.1.id],
         calls := ts.calls ++ [⟨km.1.id, ar.2, r.2⟩] },
       s.2 + 0)
    else
      ({ ts with mods := ts.mods ++ [km] }, s.2)

/-- One full scan over the not-yet-stepped modules, with `step_count`
starting at 0 (`rack.rs:205-246`). -/
def scan (patches : Patches) (time : ℚ) (st : StepType)
    (ts : TickState) : TickState × Nat :=
  ts.mods.foldl (scanStep patches time st) ({ ts with mods := [] }, 0)

/-- Cycle-breaking materialization (`rack.rs:248-256`): insert NaN for every
patch source key not yet present in `outs`; also return the list of keys
written (ghost observation). -/
def materialize (patches : Patches) (outs : Outs) : Outs × List ModuleKey :=
  let missing := (patches.filter (fun p => !outsContains outs p.1)).map (fun p => p.1)
  (missing.foldl (fun os k => outsInsert os k Val.nan) outs, missing)

/-- State of the resolution `while` loop, with the ghost per-iteration log
(`(modules stepped by the scan, keys materialized after it)`) and a flag
recording whether the structural fuel ran out. -/
structure LoopState where
  ts : TickState
  iters : List (Nat × List ModuleKey)
  exhausted : Bool

/-- One iteration of the `while` loop body (`rack.rs:206-258`): scan, then —
because the returned `step_count` is compared with 0 — materialize NaN
placeholders, then reset `step_count`. -/
def loopBody (patches : Patches) (time : ℚ) (st : StepType)
    (ls : LoopState) : LoopState :=
  let r := scan patches time st ls.ts
  let scanned := r.1.stepped.length - ls.ts.stepped.length
  if r.2 == 0 then
    let mz := materialize patches r.1.outs
    { ts := { r.1 with outs := mz.1 },
      iters := ls.iters ++ [(scanned, mz.2)],
      exhausted := ls.exhausted }
  else
    { ts := r.1, iters := ls.iters ++ [(scanned, [])], exhausted := ls.exhausted }

/-- The `while stepped.len() < modules.len()` loop (`rack.rs:206-258`),
written with structural fuel; `exhausted` is set when the fuel runs out with
modules still unstepped (proved impossible for well-formed racks with fuel
`modules.length + 1`). -/
def stepLoop (patches : Patches) (time : ℚ) (st : StepType) (nMods : Nat) :
    Nat → LoopState → LoopState
| 0, ls => if ls.ts.stepped.length < nMods then { ls with exhausted := true } else ls
| Nat.succ fuel, ls =>
  if ls.ts.stepped.length < nMods then
    stepLoop patches time st nMods fuel (loopBody patches time st ls)
  else ls

/-- Knob application of the end-of-tick feedback pass (`rack.rs:310-326`):
for each inbound patch of the module, re-apply `set_knob` when the cached
source value exists and is not NaN; Input destinations are skipped. -/
def knobApplyStep (outs : Outs) (m : Module) (p : ModuleKey × ModuleKey) :
    Module :=
  match outsFind outs p.1 with
  | some v =>
    match p.2.iok with
    | ModuleIOK.knob i => if v.isNaN then m else m.set_knob i v
    | _ => m
  | Option.none => m

/-- The full inbound-patch loop of the knob-feedback pass
(`rack.rs:313-326`). -/
def knobApply (outs : Outs) (m : Module) (ips : Patches) : Module :=
  ips.foldl (knobApplyStep outs) m

/-- The end-of-tick knob-feedback pass (`rack.rs:303-327`): every module
targeted by at least one Knob patch gets its inbound patches re-applied. -/
def knobFeedback (patches : Patches) (outs : Outs)
    (mods : List (ModuleKey × Module)) : List (ModuleKey × Module) :=
  mods.foldl (fun acc km =>
    if patches.any (fun p => p.2.id == km.1.id && p.2.iok.is_knob) then
      acc ++ [(km.1, knobApply outs km.2 (inPatches patches km.1.id))]
    else acc ++ [km]) []

/-- The rack: module map (association list in iteration order), patch table,
and the persistent `outs` cache (`rack.rs:43-59`). -/
structure Rack where
  modules : List (ModuleKey × Module)
  patches : Patches
  outs : Outs

/-- Result of one tick: final module states, the `outs` cache before and
after the end-of-tick NaN purge, and the ghost traces. -/
structure StepResult where
  mods : List (ModuleKey × Module)
  outsPre : Outs
  outs : Outs
  calls : List Call
  iters : List (Nat × List ModuleKey)
  exhausted : Bool

/-- Model of `Rack::step` (`rack.rs:179-331`): zero-dependency pass,
resolution loop (fuel `modules.length + 1`), knob-feedback pass, NaN purge
(`self.outs.extract_if(|_, v| v.is_nan()).last()`, `rack.rs:330`).
The audio drain/mix section (`rack.rs:260-301`) touches neither `outs`,
`stepped` nor any knob and is modelled standalone below. -/
def Rack.step (r : Rack) (time : ℚ) (st : StepType) : StepResult :=
  let s0 := passZero r.patches time st r.modules r.outs
  let ls := stepLoop r.patches time st r.modules.length (r.modules.length + 1)
    ⟨s0, [], false⟩
  let mods2 := knobFeedback r.patches ls.ts.outs ls.ts.mods
  { mods := mods2,
    outsPre := ls.ts.outs,
    outs := ls.ts.outs.filter (fun o => !o.2.isNaN),
    calls := ls.ts.calls,
    iters := ls.iters,
    exhausted := ls.exhausted }

/-- The rack carried into the next tick: updated module states and the
purged `outs` cache; the patch table is unchanged. -/
def Rack.next (r : Rack) (res : StepResult) : Rack :=
  { modules := res.mods, patches := r.patches, outs := res.outs }

/-- Well-formedness from the data model (the module map is keyed by id:
spec §3, `map<ModuleKey.id, Module>`): module ids are pairwise distinct. -/
def Rack.wfIds (r : Rack) : Prop :=
  (r.modules.map (fun km => km.1.id)).Nodup

/-! ## Audio pipeline blocking (`rack.rs:262-290`) -/

/-- One stereo sample `[f32; 2]`. -/
abbrev Stereo := ℚ × ℚ

/-- The fixed block size `AUDIO_BUFFER_SIZE` (`rack.rs:13`). -/
def AUDIO_BUFFER_SIZE : Nat := 512

/-- Inner loop of the additive mix fold (`rack.rs:264-273`): add each sample
of a drained buffer into the accumulator at its index, pushing when past the
end; `i` is the running index. -/
def mixIntoFrom : List Stereo → Nat → List Stereo → List Stereo
| ao, _, [] => ao
| ao, i, s :: rest =>
  if h : i < ao.length then
    mixIntoFrom (ao.set i ((ao.get ⟨i, h⟩).1 + s.1, (ao.get ⟨i, h⟩).2 + s.2)) (i + 1) rest
  else
    mixIntoFrom (ao ++ [s]) (i + 1) rest

/-- Mix one drained buffer into the accumulator (one step of the fold at
`rack.rs:264-274`). -/
def mixInto (ao b : List Stereo) : List Stereo :=
  mixIntoFrom ao 0 b

/-- The additive mix of all modules' drained audio buffers
(`rack.rs:262-274`). -/
def mixAudio (bufs : List (List Stereo)) : List Stereo :=
  bufs.foldl mixInto []

/-- Block accumulation (`rack.rs:276-290`): extend the output buffer with
the tick's mix; when the length equals `AUDIO_BUFFER_SIZE`, perform exactly
one Reinhard compress plus ring-buffer enqueue (counted by the second
component; the Reinhard DSP itself lives in the external `oddio` crate) and
reset the accumulator to empty. -/
def flushAudio (buffer ao : List Stereo) : List Stereo × Nat :=
  let b := buffer ++ ao
  if b.length = AUDIO_BUFFER_SIZE then ([], 1) else (b, 0)

/-- One tick of the output half of the audio pipeline: mix the drained
buffers, extend the accumulator, flush on reaching the block size. -/
def audioTick (buffer : List Stereo) (drained : List (List Stereo)) :
    List Stereo × Nat :=
  flushAudio buffer (mixAudio drained)

/-! ## Audio device initialization (`Rack::init_audio`, `rack.rs:61-167`) -/

/-- The host's default devices: the output device's sample rate when one
exists, and the input device's channel count when one exists. -/
structure HostDevices where
  outputDevice : Option Nat
  inputChannels : Option Nat

/-- Outcome of `init_audio`: success (recording whether an input context was
created), or one of its two panics. -/
inductive InitAudioResult where
| ok : Bool → InitAudioResult
| panicNoOutputDevice : InitAudioResult
| panicUnsupportedChannels : InitAudioResult
deriving DecidableEq, Repr

/-- Model of `Rack::init_audio` (`rack.rs:61-167`): the output device is
mandatory (`.expect("no audio output device available")`, line 63); a
missing input device is tolerated (`None => None`, line 152); an input
device with a channel count other than 1 or 2 panics
(`panic!("Failed to init audio input stream: unsupported number of
channels")`, line 139). -/
def init_audio (h : HostDevices) : InitAudioResult :=
  match h.outputDevice with
  | Option.none => InitAudioResult.panicNoOutputDevice
  | some _ =>
    match h.inputChannels with
    | Option.none => InitAudioResult.ok false
    | some c =>
      if c = 1 ∨ c = 2 then InitAudioResult.ok true
      else InitAudioResult.panicUnsupportedChannels

/-- The lazy-initialization gate at the top of `Rack::step`
(`rack.rs:180-182`): `init_audio` runs exactly when no audio context is
active; `some` returns its outcome, `none` means no initialization ran. -/
def stepInitAudio (ctx : Option Bool) (h : HostDevices) : Option InitAudioResult :=
  if ctx.isNone then some (init_audio h) else Option.none

/-! ## Time base (spec §4.4) -/

/-- Modelled from the spec: the current `rack_stepper` of `src/main.rs` (the
`StepType`-aware driver; `src/main.rs` in this tree is a stale pre-`StepType`
snapshot that does not declare the `StepType` used by `rack.rs`, so the
current function body is missing from the sources).  Spec §4.4: per outer
frame, `audio_steps = device_sample_rate / frame_rate` (integer division);
exactly 1 Key step, then `audio_steps - 1` further Audio steps, each
advancing the clock by `1/sample_rate`. -/
def rack_stepper_ticks (sample_rate frame_rate : Nat) (t0 : ℚ) :
    List (StepType × ℚ) :=
  (List.range (sample_rate / frame_rate)).map (fun (i : Nat) =>
    (if i = 0 then StepType.Key else StepType.Audio,
     t0 + (i : ℚ) * (1 / (sample_rate : ℚ))))

/-! ## Ghost observations and test fixtures -/

/-- Ghost shape of a module entry: key, input arity, knob count.  These are
invariant over a tick (a `step` call changes only the internal state, and
`set_knob` writes an existing slot). -/
def shapeKV (km : ModuleKey × Module) : ModuleKey × Nat × Nat :=
  (km.1, km.2.numInputs, km.2.knobs.length)

/-- Whether a recorded call wrote the given outs key (the keys
`(id, Output i)` for `i` below the returned output count). -/
def Call.writes (c : Call) (k : ModuleKey) : Bool :=
  k.id == c.id &&
    (match k.iok with
     | ModuleIOK.output j => decide (j < c.mouts.length)
     | _ => false)

/-- The fan-out invariant for claim C4: every recorded call of one of the
two destination modules read the (stable) cached value of the source key. -/
def C4Inv (srcKey : ModuleKey) (d1 i1 d2 i2 : Nat) (outs : Outs)
    (calls : List Call) : Prop :=
  ∀ c ∈ calls,
    (c.id = d1 → ∃ v, outsFind outs srcKey = some v ∧ c.ins.get? i1 = some v) ∧
    (c.id = d2 → ∃ v, outsFind outs srcKey = some v ∧ c.ins.get? i2 = some v)

def modIds (mods : List (ModuleKey × Module)) : List Nat :=
  mods.map (fun km => km.1.id)

/-! ## Test fixtures -/

/-- A module with a constant output vector and no interesting state. -/
def constMod (nin : Nat) (outsv : List Val) : Module :=
  ⟨nin, [], 0, fun _ _ s _ _ => (s, outsv)⟩

/-- The whole-module map key `"<id>M"`. -/
def okey (id : Nat) : ModuleKey := ⟨id, ModuleIOK.none⟩

/-- An acyclic chain `0.O0 → 1.I0 → … → 3.I0` whose map iteration order is
`3, 2, 1, 0` (worst case for the scheduler). -/
def chainRack : Rack :=
  ⟨[(okey 3, constMod 1 [Val.num 40]), (okey 2, constMod 1 [Val.num 30]),
    (okey 1, constMod 1 [Val.num 20]), (okey 0, constMod 0 [Val.num 10])],
   [(⟨0, ModuleIOK.output 0⟩, ⟨1, ModuleIOK.input 0⟩),
    (⟨1, ModuleIOK.output 0⟩, ⟨2, ModuleIOK.input 0⟩),
    (⟨2, ModuleIOK.output 0⟩, ⟨3, ModuleIOK.input 0⟩)], []⟩

/-- A single module with one declared input and no patches at all. -/
def soloRack : Rack := ⟨[(okey 0, constMod 1 [Val.num 7])], [], []⟩

/-- A module whose input 0 is unpatched while input 1 is fed by its own
output. -/
def partialRack : Rack :=
  ⟨[(okey 0, constMod 2 [Val.num 9])],
   [(⟨0, ModuleIOK.output 0⟩, ⟨0, ModuleIOK.input 1⟩)], []⟩

/-- A fan-out source inside a feedback cycle: `0.O0` feeds `0.I0` (self
loop), `1.I0` and `2.I0`; iteration order `1, 0, 2`. -/
def fanRack : Rack :=
  ⟨[(okey 1, constMod 1 [Val.num 5]), (okey 0, constMod 1 [Val.num 1]),
    (okey 2, constMod 1 [Val.num 6])],
   [(⟨0, ModuleIOK.output 0⟩, ⟨0, ModuleIOK.input 0⟩),
    (⟨0, ModuleIOK.output 0⟩, ⟨1, ModuleIOK.input 0⟩),
    (⟨0, ModuleIOK.output 0⟩, ⟨2, ModuleIOK.input 0⟩)], []⟩

/-- A fan-out rack whose source has no inputs: `0.O0 → 1.I0` and
`0.O0 → 2.I0`. -/
def fanOkRack : Rack :=
  ⟨[(okey 1, constMod 1 [Val.num 5]), (okey 0, constMod 0 [Val.num 4]),
    (okey 2, constMod 1 [Val.num 6])],
   [(⟨0, ModuleIOK.output 0⟩, ⟨1, ModuleIOK.input 0⟩),
    (⟨0, ModuleIOK.output 0⟩, ⟨2, ModuleIOK.input 0⟩)], []⟩

/-- Source module 0 (a counter: tick t outputs `t`) feeding the knob of
module 1, whose step reports its own knob array as its outputs. -/
def knobRack : Rack :=
  ⟨[(okey 0, ⟨0, [], 0, fun _ _ s _ _ => (s + 1, [Val.num (s : ℚ)])⟩),
    (okey 1, ⟨1, [Val.num 99], 0, fun _ _ s k _ => (s, k)⟩)],
   [(⟨0, ModuleIOK.output 0⟩, ⟨1, ModuleIOK.knob 0⟩)], []⟩

/-- A constant source feeding module 1's knob; module 1 has no inputs. -/
def knobOkRack : Rack :=
  ⟨[(okey 0, constMod 0 [Val.num 3]),
    (okey 1, ⟨0, [Val.num 99], 0, fun _ _ s k _ => (s, k)⟩)],
   [(⟨0, ModuleIOK.output 0⟩, ⟨1, ModuleIOK.knob 0⟩)], []⟩

/-- A rack whose initial cache holds a stale entry `9M0O ↦ 7` written by no
module of the tick. -/
def staleRack : Rack :=
  ⟨[(okey 0, constMod 0 [Val.num 5])], [],
   [(⟨9, ModuleIOK.output 0⟩, Val.num 7)]⟩

/-! ## Lemmas about the address parser -/

theorem split_once_M_eq :
    ∀ (v a b : List Char), split_once_M v = some (a, b) → v = a ++ 'M' :: b := by
  intro v
  induction v with
  | nil => intro a b h; simp [split_once_M] at h
  | cons c rest ih =>
    intro a b h
    by_cases hc : c = 'M'
    · rw [split_once_M, if_pos hc] at h
      simp only [Option.some.injEq, Prod.mk.injEq] at h
      obtain ⟨h1, h2⟩ := h
      subst h1
      subst h2
      subst hc
      rfl
    · rw [split_once_M, if_neg hc] at h
      cases hrec : split_once_M rest with
      | none => rw [hrec] at h; simp at h
      | some p =>
        rw [hrec] at h
        simp only [Option.map_some', Option.some.injEq, Prod.mk.injEq] at h
        obtain ⟨h1, h2⟩ := h
        subst h1
        subst h2
        have := ih p.1 p.2 (by rw [hrec])
        rw [List.cons_append, ← this]

/-- C9 counterexample: the address `"0MI"` has a nonempty remainder after the
first `M`, so by the claim its (empty) index part must fail to parse and the
load must error; the code instead accepts it as a whole-module placeholder.
Likewise `"3M5"` (trailing character not in I/O/K) is accepted. -/
theorem c9_counterexample :
    visit_str ['0', 'M', 'I'] = some ⟨0, ModuleIOK.none⟩ ∧
    visit_str ['3', 'M', '5'] = some ⟨3, ModuleIOK.none⟩ ∧
    some (ModuleKey.mk 0 ModuleIOK.none) ≠ (Option.none : Option ModuleKey) := by
  refine ⟨by decide, by decide, by decide⟩

/-- C9 (amended): the address parser splits on the first `M` and
integer-parses the id; a remainder of length at least two integer-parses all
but its last character as the index and reads its last character as the Kind
(I, O, or K), erroring on an unparsable id or index or a bad kind character;
a remainder that is empty or a single character yields the whole-module
placeholder; a missing `M` or unparsable id errors. -/
theorem c9_parse_addresses (v : List Char) :
    visit_str v = parseModuleKeyAmended v := by
  unfold visit_str parseModuleKeyAmended
  cases hsplit : split_once_M v with
  | none => rfl
  | some p =>
    obtain ⟨idStr, rest⟩ := p
    have hv : v = idStr ++ 'M' :: rest := split_once_M_eq v idStr rest hsplit
    dsimp only
    cases hid : parse_usize idStr with
    | none => rfl
    | some id =>
      by_cases hlen : rest.length ≤ 1
      · have hpre : rest.take (rest.length - 1) = [] := by
          have h0 : rest.length - 1 = 0 := by omega
          rw [h0, List.take_zero]
        rw [hpre]
        dsimp only
        rw [if_pos hlen]
        rfl
      · have hlen2 : 2 ≤ rest.length := by omega
        have hpre : rest.take (rest.length - 1) = rest.dropLast := by
          rw [List.dropLast_eq_take]
        have hne : rest ≠ [] := by
          intro hr
          rw [hr] at hlen2
          simp at hlen2
        have hpreNe : rest.dropLast ≠ [] := by
          intro hd
          have hld := congrArg List.length hd
          rw [List.length_dropLast] at hld
          simp at hld
          omega
        rw [hpre]
        have hEmp : rest.dropLast.isEmpty = false := by
          cases hdl : rest.dropLast with
          | nil => exact absurd hdl hpreNe
          | cons x xs => rfl
        rw [hEmp]
        have hlast : v.getLast? = rest.getLast? := by
          rw [hv, List.getLast?_append_cons]
          cases rest with
          | nil => exact absurd rfl hne
          | cons x xs =>
            cases xs with
            | nil => simp at hlen2
            | cons y ys => rw [List.getLast?_cons_cons]
        rw [hlast]
        dsimp only
        rw [if_neg hlen]
        cases parse_usize rest.dropLast with
        | none =>
          cases rest.getLast? with
          | none => rfl
          | some t => rfl
        | some idx =>
          cases rest.getLast? with
          | none => rfl
          | some t => rfl

/-! ## Time base (C6) -/

set_option maxRecDepth 8000 in
/-- C6: with device sample rate 44100 and frame rate 60 in Audio mode, each
outer frame drives 735 steps (integer `audio_steps = 44100 / 60`): exactly
one Key step and 734 Audio steps, and every step after the first is an Audio
step whose clock value is its predecessor's plus exactly `1/44100`. -/
theorem c6_time_base (t0 : ℚ) (i : Nat) (h : i + 1 < 735) :
    (rack_stepper_ticks 44100 60 t0).length = 735 ∧
    ((rack_stepper_ticks 44100 60 t0).map Prod.fst).count StepType.Key = 1 ∧
    ((rack_stepper_ticks 44100 60 t0).map Prod.fst).count StepType.Audio = 734 ∧
    ∃ a b : StepType × ℚ,
      (rack_stepper_ticks 44100 60 t0).get? i = some a ∧
      (rack_stepper_ticks 44100 60 t0).get? (i + 1) = some b ∧
      b.1 = StepType.Audio ∧ b.2 = a.2 + 1 / 44100 := by
  have h735 : (44100 : ℕ) / 60 = 735 := by norm_num
  have htypes : (rack_stepper_ticks 44100 60 t0).map Prod.fst =
      (List.range 735).map (fun j => if j = 0 then StepType.Key else StepType.Audio) := by
    rw [rack_stepper_ticks, List.map_map, h735]
    rfl
  have hget : ∀ j, j < 735 → (rack_stepper_ticks 44100 60 t0).get? j =
      some (if j = 0 then StepType.Key else StepType.Audio,
            t0 + (j : ℚ) * (1 / ((44100 : ℕ) : ℚ))) := by
    intro j hj
    rw [rack_stepper_ticks, h735, List.get?_map, List.get?_range hj]
    rfl
  refine ⟨?_, ?_, ?_, ?_⟩
  · rw [rack_stepper_ticks, h735, List.length_map, List.length_range]
  · rw [htypes]; decide
  · rw [htypes]; decide
  · refine ⟨_, _, hget i (by omega), hget (i + 1) h, ?_, ?_⟩
    · simp
    · simp only [if_neg (Nat.succ_ne_zero i)]
      push_cast
      ring

/-- Witness for C6 at `t0 = 0`, `i = 0`. -/
theorem c6_time_base_witness :
    (rack_stepper_ticks 44100 60 0).length = 735 ∧
    ((rack_stepper_ticks 44100 60 0).map Prod.fst).count StepType.Key = 1 ∧
    ((rack_stepper_ticks 44100 60 0).map Prod.fst).count StepType.Audio = 734 ∧
    ∃ a b : StepType × ℚ,
      (rack_stepper_ticks 44100 60 0).get? 0 = some a ∧
      (rack_stepper_ticks 44100 60 0).get? (0 + 1) = some b ∧
      b.1 = StepType.Audio ∧ b.2 = a.2 + 1 / 44100 :=
  c6_time_base 0 0 (by norm_num)

/-! ## Audio blocking (C7) -/

/-- C7: extending the accumulation buffer with a tick's mixed audio triggers
exactly one compress-plus-enqueue and resets the accumulator exactly when
the new length equals `AUDIO_BUFFER_SIZE`; otherwise nothing is enqueued and
the partial block (the old buffer extended by the mix) persists. -/
theorem c7_audio_blocking (buffer : List Stereo) (drained : List (List Stereo)) :
    audioTick buffer drained =
      if buffer.length + (mixAudio drained).length = AUDIO_BUFFER_SIZE then ([], 1)
      else (buffer ++ mixAudio drained, 0) := by
  unfold audioTick flushAudio
  simp only [List.length_append]

/-! ## Device initialization (C10) -/

/-- C10: on a `Rack::step` without an active audio context, `init_audio`
runs (lazy initialization), and never runs otherwise; a present default
input device with a channel count other than 1 or 2 makes `init_audio`
panic with the unsupported-channels message, while a missing input device is
tolerated (the context is created without audio input). -/
theorem c10_lazy_init_channels (h : HostDevices) (sr c : Nat)
    (hout : h.outputDevice = some sr) (hin : h.inputChannels = some c)
    (hc1 : c ≠ 1) (hc2 : c ≠ 2) :
    stepInitAudio Option.none h = some (init_audio h) ∧
    (∀ b, stepInitAudio (some b) h = Option.none) ∧
    init_audio h = InitAudioResult.panicUnsupportedChannels ∧
    init_audio { h with inputChannels := Option.none } = InitAudioResult.ok false := by
  refine ⟨by simp [stepInitAudio], fun b => by simp [stepInitAudio], ?_, ?_⟩
  · rw [init_audio, hout]
    simp only [hin]
    rw [if_neg]
    intro hor
    cases hor with
    | inl h1 => exact hc1 h1
    | inr h2 => exact hc2 h2
  · rw [init_audio]
    simp [hout]

/-- Witness for C10: output device at 44100 Hz, input device with 4
channels. -/
theorem c10_lazy_init_channels_witness :
    stepInitAudio Option.none ⟨some 44100, some 4⟩ =
      some (init_audio ⟨some 44100, some 4⟩) ∧
    (∀ b, stepInitAudio (some b) ⟨some 44100, some 4⟩ = Option.none) ∧
    init_audio ⟨some 44100, some 4⟩ = InitAudioResult.panicUnsupportedChannels ∧
    init_audio { HostDevices.mk (some 44100) (some 4) with inputChannels := Option.none } =
      InitAudioResult.ok false :=
  c10_lazy_init_channels ⟨some 44100, some 4⟩ 44100 4 rfl rfl
    (by norm_num) (by norm_num)

/-! ## Lemmas about the outs cache -/

theorem outsFind_insert_self (outs : Outs) (k : ModuleKey) (v : Val) :
    outsFind (outsInsert outs k v) k = some v := by
  induction outs with
  | nil => simp [outsInsert, outsFind]
  | cons o os ih =>
    by_cases h : o.1 = k
    · rw [outsInsert, if_pos h]
      simp [outsFind]
    · rw [outsInsert, if_neg h]
      rw [outsFind] at ih ⊢
      rw [List.find?_cons_of_neg _ (by simp [h])]
      exact ih

theorem outsFind_insert_ne (outs : Outs) (k k' : ModuleKey) (v : Val)
    (h : k ≠ k') : outsFind (outsInsert outs k' v) k = outsFind outs k := by
  have hne : (k' == k) = false := beq_eq_false_iff_ne.mpr (Ne.symm h)
  induction outs with
  | nil =>
    rw [outsInsert, outsFind, outsFind]
    rw [List.find?_cons_of_neg _ (by simp [hne]), List.find?_nil]
  | cons o os ih =>
    by_cases ho : o.1 = k'
    · rw [outsInsert, if_pos ho]
      rw [outsFind, outsFind]
      rw [List.find?_cons_of_neg _ (by simp [hne])]
      rw [List.find?_cons_of_neg _ (by simp [ho, hne])]
    · rw [outsInsert, if_neg ho]
      by_cases hk : o.1 = k
      · rw [outsFind, outsFind]
        rw [List.find?_cons_of_pos _ (by simp [hk]), List.find?_cons_of_pos _ (by simp [hk])]
      · rw [outsFind, outsFind] at ih ⊢
        rw [List.find?_cons_of_neg _ (by simp [hk]), List.find?_cons_of_neg _ (by simp [hk])]
        exact ih

theorem outsContains_iff_find (outs : Outs) (k : ModuleKey) :
    outsContains outs k = true ↔ ∃ v, outsFind outs k = some v := by
  induction outs with
  | nil => simp [outsContains, outsFind]
  | cons o os ih =>
    by_cases h : o.1 = k
    · simp only [outsContains, outsFind] at ih ⊢
      rw [List.any_cons, List.find?_cons_of_pos _ (by simp [h])]
      simp [h]
    · simp only [outsContains, outsFind] at ih ⊢
      rw [List.any_cons, List.find?_cons_of_neg _ (by simp [h])]
      simpa [h] using ih

theorem outsFind_some_contains (outs : Outs) (k : ModuleKey) (v : Val)
    (h : outsFind outs k = some v) : outsContains outs k = true :=
  (outsContains_iff_find outs k).mpr ⟨v, h⟩

theorem outsContains_insert_self (outs : Outs) (k : ModuleKey) (v : Val) :
    outsContains (outsInsert outs k v) k = true :=
  outsFind_some_contains _ k v (outsFind_insert_self outs k v)

theorem outsContains_insert_mono (outs : Outs) (k k' : ModuleKey) (v : Val)
    (h : outsContains outs k = true) :
    outsContains (outsInsert outs k' v) k = true := by
  by_cases hk : k = k'
  · subst hk
    exact outsContains_insert_self outs k v
  · obtain ⟨w, hw⟩ := (outsContains_iff_find outs k).mp h
    exact outsFind_some_contains _ k w (by rw [outsFind_insert_ne outs k k' v hk]; exact hw)

theorem outsFind_insertOutsFrom (id : Nat) (vs : List Val) :
    ∀ (outs : Outs) (i : Nat) (k : ModuleKey),
    (∀ j, i ≤ j → j < i + vs.length → k ≠ ⟨id, ModuleIOK.output j⟩) →
    outsFind (insertOutsFrom id outs i vs) k = outsFind outs k := by
  induction vs with
  | nil => intro outs i k _; rfl
  | cons v vs ih =>
    intro outs i k hk
    rw [insertOutsFrom]
    rw [ih (outsInsert outs ⟨id, ModuleIOK.output i⟩ v) (i + 1) k
      (fun j h1 h2 => hk j (by omega) (by simp at h2 ⊢; omega))]
    exact outsFind_insert_ne outs k ⟨id, ModuleIOK.output i⟩ v
      (hk i (le_refl i) (by simp))

theorem outsContains_insertOutsFrom_mono (id : Nat) (vs : List Val) :
    ∀ (outs : Outs) (i : Nat) (k : ModuleKey),
    outsContains outs k = true →
    outsContains (insertOutsFrom id outs i vs) k = true := by
  induction vs with
  | nil => intro outs i k h; exact h
  | cons v vs ih =>
    intro outs i k h
    rw [insertOutsFrom]
    exact ih _ (i + 1) k (outsContains_insert_mono outs k _ v h)

theorem outsFind_insertOuts_ne (id : Nat) (outs : Outs) (mouts : List Val)
    (k : ModuleKey) (hk : ∀ j, j < mouts.length → k ≠ ⟨id, ModuleIOK.output j⟩) :
    outsFind (insertOuts outs id mouts) k = outsFind outs k := by
  rw [insertOuts]
  exact outsFind_insertOutsFrom id mouts outs 0 k (fun j _ h2 => hk j (by omega))

/-! ## Lemmas about materialization -/

theorem outsFind_foldl_insert_ne (ks : List ModuleKey) :
    ∀ (outs : Outs) (k : ModuleKey), (∀ k' ∈ ks, k' ≠ k) →
    outsFind (ks.foldl (fun os k' => outsInsert os k' Val.nan) outs) k = outsFind outs k := by
  induction ks with
  | nil => intro outs k _; rfl
  | cons a ks ih =>
    intro outs k h
    rw [List.foldl_cons]
    rw [ih _ k (fun k' hk' => h k' (List.mem_cons_of_mem a hk'))]
    exact outsFind_insert_ne outs k a Val.nan
      (fun he => h a (List.mem_cons_self a ks) he.symm)

theorem outsContains_foldl_insert_mono (ks : List ModuleKey) :
    ∀ (outs : Outs) (k : ModuleKey), outsContains outs k = true →
    outsContains (ks.foldl (fun os k' => outsInsert os k' Val.nan) outs) k = true := by
  induction ks with
  | nil => intro outs k h; exact h
  | cons a ks ih =>
    intro outs k h
    rw [List.foldl_cons]
    exact ih _ k (outsContains_insert_mono outs k a Val.nan h)

theorem outsContains_foldl_insert_mem (ks : List ModuleKey) :
    ∀ (outs : Outs) (k : ModuleKey), k ∈ ks →
    outsContains (ks.foldl (fun os k' => outsInsert os k' Val.nan) outs) k = true := by
  induction ks with
  | nil => intro outs k h; simp at h
  | cons a ks ih =>
    intro outs k h
    rw [List.foldl_cons]
    rcases List.mem_cons.mp h with h1 | h2
    · subst h1
      exact outsContains_foldl_insert_mono ks _ k (outsContains_insert_self outs k Val.nan)
    · exact ih _ k h2

theorem materialize_find_present (patches : Patches) (outs : Outs)
    (k : ModuleKey) (v : Val) (h : outsFind outs k = some v) :
    outsFind (materialize patches outs).1 k = some v := by
  rw [materialize]
  dsimp only
  rw [outsFind_foldl_insert_ne _ outs k ?_]
  · exact h
  · intro k' hk'
    obtain ⟨p, hp, hpk⟩ := List.mem_map.mp hk'
    have hcf : outsContains outs p.1 = false := by
      have := (List.mem_filter.mp hp).2
      simpa using this
    intro he
    rw [hpk, he, outsFind_some_contains outs k v h] at hcf
    simp at hcf

theorem materialize_allPresent (patches : Patches) (outs : Outs) :
    ∀ p ∈ patches, outsContains (materialize patches outs).1 p.1 = true := by
  intro p hp
  rw [materialize]
  dsimp only
  by_cases hc : outsContains outs p.1 = true
  · exact outsContains_foldl_insert_mono _ outs p.1 hc
  · refine outsContains_foldl_insert_mem _ outs p.1 ?_
    refine List.mem_map.mpr ⟨p, ?_, rfl⟩
    refine List.mem_filter.mpr ⟨hp, ?_⟩
    simp only [Bool.not_eq_true] at hc
    simp [hc]

theorem materialize_contains_mono (patches : Patches) (outs : Outs)
    (k : ModuleKey) (h : outsContains outs k = true) :
    outsContains (materialize patches outs).1 k = true := by
  rw [materialize]
  dsimp only
  exact outsContains_foldl_insert_mono _ outs k h

/-! ## The NaN purge -/

theorem outsFind_filter_nonNaN (outs : Outs) (k : ModuleKey) (v : Val)
    (h : outsFind outs k = some v) (hv : v.isNaN = false) :
    outsFind (outs.filter (fun o => !o.2.isNaN)) k = some v := by
  induction outs with
  | nil => simp [outsFind] at h
  | cons o os ih =>
    rw [List.filter_cons]
    by_cases hk : o.1 = k
    · rw [outsFind, List.find?_cons_of_pos _ (by simp [hk])] at h
      simp only [Option.map_some', Option.some.injEq] at h
      subst h
      rw [if_pos (by simp [hv])]
      rw [outsFind, List.find?_cons_of_pos _ (by simp [hk])]
      rfl
    · rw [outsFind, List.find?_cons_of_neg _ (by simp [hk])] at h
      by_cases hnan : o.2.isNaN = true
      · rw [if_neg (by simp [hnan])]
        exact ih h
      · have hf : o.2.isNaN = false := by
          simp only [Bool.not_eq_true] at hnan
          exact hnan
        rw [if_pos (by simp [hf])]
        rw [outsFind, List.find?_cons_of_neg _ (by simp [hk])]
        exact ih h

/-! ## Ghost observations -/

theorem writes_false_ne (c : Call) (k : ModuleKey) (hw : c.writes k = false) :
    ∀ j, j < c.mouts.length → k ≠ ⟨c.id, ModuleIOK.output j⟩ := by
  intro j hj he
  subst he
  simp [Call.writes, hj] at hw

theorem get?_replicate_lt (a : Val) (n i : Nat) (h : i < n) :
    (List.replicate n a).get? i = some a := by
  induction n generalizing i with
  | zero => omega
  | succ n ih =>
    cases i with
    | zero => rfl
    | succ i =>
      rw [List.replicate_succ]
      exact ih i (by omega)

/-! ## Lemmas about applyPatches -/

theorem applyPatchesStep_shape (outs : Outs) (acc : Module × List Val)
    (p : ModuleKey × ModuleKey) :
    (applyPatchesStep outs acc p).1.numInputs = acc.1.numInputs ∧
    (applyPatchesStep outs acc p).1.knobs.length = acc.1.knobs.length ∧
    (applyPatchesStep outs acc p).2.length = acc.2.length := by
  rw [applyPatchesStep]
  cases outsFind outs p.1 with
  | none => exact ⟨rfl, rfl, rfl⟩
  | some v =>
    cases p.2.iok with
    | none => exact ⟨rfl, rfl, rfl⟩
    | input i => exact ⟨rfl, rfl, List.length_set acc.2 i v⟩
    | output i => exact ⟨rfl, rfl, rfl⟩
    | knob i =>
      dsimp only
      by_cases hnan : v.isNaN = true
      · rw [if_pos hnan]
        exact ⟨rfl, rfl, rfl⟩
      · rw [if_neg hnan]
        exact ⟨rfl, by simp [Module.set_knob], rfl⟩

theorem applyPatches_go_shape (outs : Outs) (ips : Patches) :
    ∀ acc : Module × List Val,
    (ips.foldl (applyPatchesStep outs) acc).1.numInputs = acc.1.numInputs ∧
    (ips.foldl (applyPatchesStep outs) acc).1.knobs.length = acc.1.knobs.length ∧
    (ips.foldl (applyPatchesStep outs) acc).2.length = acc.2.length := by
  induction ips with
  | nil => intro acc; exact ⟨rfl, rfl, rfl⟩
  | cons p ips ih =>
    intro acc
    rw [List.foldl_cons]
    obtain ⟨h1, h2, h3⟩ := ih (applyPatchesStep outs acc p)
    obtain ⟨g1, g2, g3⟩ := applyPatchesStep_shape outs acc p
    exact ⟨h1.trans g1, h2.trans g2, h3.trans g3⟩

theorem applyPatches_shape (outs : Outs) (m : Module) (ips : Patches) :
    (applyPatches outs m ips).1.numInputs = m.numInputs ∧
    (applyPatches outs m ips).1.knobs.length = m.knobs.length ∧
    (applyPatches outs m ips).2.length = m.numInputs := by
  obtain ⟨h1, h2, h3⟩ := applyPatches_go_shape outs ips (m, List.replicate m.numInputs Val.nan)
  exact ⟨h1, h2, by rw [applyPatches]; rw [h3]; simp⟩

theorem applyPatches_go_get_preserved (outs : Outs) (i0 : Nat) (ips : Patches)
    (h : ∀ p ∈ ips, p.2.iok ≠ ModuleIOK.input i0) :
    ∀ acc : Module × List Val,
    (ips.foldl (applyPatchesStep outs) acc).2.get? i0 = acc.2.get? i0 := by
  induction ips with
  | nil => intro acc; rfl
  | cons p ips ih =>
    intro acc
    rw [List.foldl_cons]
    rw [ih (fun q hq => h q (List.mem_cons_of_mem p hq)) (applyPatchesStep outs acc p)]
    rw [applyPatchesStep]
    cases outsFind outs p.1 with
    | none => rfl
    | some v =>
      cases hio : p.2.iok with
      | none => rfl
      | output i => rfl
      | knob i =>
        by_cases hnan : v.isNaN = true
        · simp [hnan]
        · simp only [Bool.not_eq_true] at hnan
          simp [hnan]
      | input i =>
        have hne : i ≠ i0 := by
          intro he
          exact h p (List.mem_cons_self p ips) (by rw [hio, he])
        exact List.get?_set_ne v _ hne

theorem applyPatches_get_unpatched (outs : Outs) (m : Module) (ips : Patches)
    (i0 : Nat) (h : ∀ p ∈ ips, p.2.iok ≠ ModuleIOK.input i0)
    (hr : i0 < m.numInputs) :
    (applyPatches outs m ips).2.get? i0 = some Val.nan := by
  rw [applyPatches, applyPatches_go_get_preserved outs i0 ips h]
  exact get?_replicate_lt Val.nan m.numInputs i0 hr

theorem applyPatches_go_get_patched (outs : Outs) (d i : Nat) (sk : ModuleKey)
    (v : Val) (hfind : outsFind outs sk = some v) (ips : Patches) :
    ∀ acc : Module × List Val,
    (∀ p ∈ ips, p.2.id = d) →
    ips.filter (fun p => p.2 == ModuleKey.mk d (ModuleIOK.input i)) =
      [(sk, ModuleKey.mk d (ModuleIOK.input i))] →
    i < acc.2.length →
    (ips.foldl (applyPatchesStep outs) acc).2.get? i = some v := by
  induction ips with
  | nil => intro acc _ hfil _; simp at hfil
  | cons p ips ih =>
    intro acc hdest hfil hlen
    rw [List.filter_cons] at hfil
    by_cases hp : p.2 = ModuleKey.mk d (ModuleIOK.input i)
    · rw [if_pos (by simp [hp])] at hfil
      simp only [List.cons.injEq] at hfil
      obtain ⟨hp1, hfil2⟩ := hfil
      have hrest : ∀ q ∈ ips, q.2.iok ≠ ModuleIOK.input i := by
        intro q hq he
        have hqd : q.2 = ModuleKey.mk d (ModuleIOK.input i) := by
          have hid := hdest q (List.mem_cons_of_mem p hq)
          cases hq2 : q.2 with
          | mk qid qiok =>
            rw [hq2] at hid he
            simp at hid he
            simp [hid, he]
        have : q ∈ ips.filter (fun p => p.2 == ModuleKey.mk d (ModuleIOK.input i)) :=
          List.mem_filter.mpr ⟨hq, by simp [hqd]⟩
        rw [hfil2] at this
        simp at this
      rw [List.foldl_cons]
      rw [applyPatches_go_get_preserved outs i ips hrest]
      have hp1' : p.1 = sk := by
        have := congrArg Prod.fst hp1
        simpa using this
      rw [applyPatchesStep, hp1', hfind, hp]
      dsimp only
      exact List.get?_set_eq_of_lt v hlen
    · rw [if_neg (by simp [hp])] at hfil
      rw [List.foldl_cons]
      have hshape := applyPatchesStep_shape outs acc p
      refine ih (applyPatchesStep outs acc p)
        (fun q hq => hdest q (List.mem_cons_of_mem p hq)) hfil ?_
      rw [hshape.2.2]
      exact hlen

theorem applyPatches_get_patched (outs : Outs) (m : Module) (ips : Patches)
    (d i : Nat) (sk : ModuleKey) (v : Val)
    (hfind : outsFind outs sk = some v)
    (hdest : ∀ p ∈ ips, p.2.id = d)
    (hfil : ips.filter (fun p => p.2 == ModuleKey.mk d (ModuleIOK.input i)) =
      [(sk, ModuleKey.mk d (ModuleIOK.input i))])
    (hr : i < m.numInputs) :
    (applyPatches outs m ips).2.get? i = some v := by
  rw [applyPatches]
  exact applyPatches_go_get_patched outs d i sk v hfind ips
    (m, List.replicate m.numInputs Val.nan) hdest hfil (by simp [hr])

/-! ## Lemmas about the zero-dependency pass -/

theorem passZero_go_calls (patches : Patches) (time : ℚ) (st : StepType)
    (l : List (ModuleKey × Module)) :
    ∀ s : TickState,
    (List.foldl (passZeroStep patches time st) s l).calls =
      s.calls ++ (l.filter (fun km => passZeroCond patches km.1 km.2)).map
        (fun km => ⟨km.1.id, List.replicate km.2.numInputs (Val.num 0),
          (km.2.stepCall time st (List.replicate km.2.numInputs (Val.num 0))).2⟩) := by
  induction l with
  | nil => intro s; simp
  | cons km l ih =>
    intro s
    rw [List.foldl_cons, List.filter_cons]
    by_cases hc : passZeroCond patches km.1 km.2 = true
    · rw [if_pos hc, ih, passZeroStep, if_pos hc]
      simp
    · rw [if_neg hc, ih, passZeroStep, if_neg hc]

theorem passZero_go_stepped (patches : Patches) (time : ℚ) (st : StepType)
    (l : List (ModuleKey × Module)) :
    ∀ s : TickState,
    (List.foldl (passZeroStep patches time st) s l).stepped =
      s.stepped ++ (l.filter (fun km => passZeroCond patches km.1 km.2)).map
        (fun km => km.1.id) := by
  induction l with
  | nil => intro s; simp
  | cons km l ih =>
    intro s
    rw [List.foldl_cons, List.filter_cons]
    by_cases hc : passZeroCond patches km.1 km.2 = true
    · rw [if_pos hc, ih, passZeroStep, if_pos hc]
      simp
    · rw [if_neg hc, ih, passZeroStep, if_neg hc]

theorem passZero_go_shapes (patches : Patches) (time : ℚ) (st : StepType)
    (l : List (ModuleKey × Module)) :
    ∀ s : TickState,
    (List.foldl (passZeroStep patches time st) s l).mods.map shapeKV =
      s.mods.map shapeKV ++ l.map shapeKV := by
  induction l with
  | nil => intro s; simp
  | cons km l ih =>
    intro s
    rw [List.foldl_cons, List.map_cons]
    by_cases hc : passZeroCond patches km.1 km.2 = true
    · rw [ih, passZeroStep, if_pos hc]
      simp [shapeKV, Module.stepCall]
    · rw [ih, passZeroStep, if_neg hc]
      simp

theorem passZero_go_contains_mono (patches : Patches) (time : ℚ) (st : StepType)
    (l : List (ModuleKey × Module)) :
    ∀ (s : TickState) (k : ModuleKey), outsContains s.outs k = true →
    outsContains (List.foldl (passZeroStep patches time st) s l).outs k = true := by
  induction l with
  | nil => intro s k h; exact h
  | cons km l ih =>
    intro s k h
    rw [List.foldl_cons]
    refine ih _ k ?_
    rw [passZeroStep]
    by_cases hc : passZeroCond patches km.1 km.2 = true
    · rw [if_pos hc]
      exact outsContains_insertOutsFrom_mono km.1.id _ s.outs 0 k h
    · rw [if_neg hc]
      exact h

theorem passZero_go_frame (patches : Patches) (time : ℚ) (st : StepType)
    (l : List (ModuleKey × Module)) :
    ∀ (s : TickState) (k : ModuleKey) (v : Val), outsFind s.outs k = some v →
    outsFind (List.foldl (passZeroStep patches time st) s l).outs k = some v ∨
    ∃ c ∈ (List.foldl (passZeroStep patches time st) s l).calls,
      c.writes k = true := by
  induction l with
  | nil => intro s k v h; exact Or.inl h
  | cons km l ih =>
    intro s k v h
    rw [List.foldl_cons]
    by_cases hc : passZeroCond patches km.1 km.2 = true
    · set ins := List.replicate km.2.numInputs (Val.num 0) with hins
      set c0 : Call := ⟨km.1.id, ins, (km.2.stepCall time st ins).2⟩ with hc0
      have hs' : passZeroStep patches time st s km =
          { mods := s.mods ++ [(km.1, (km.2.stepCall time st ins).1)],
            outs := insertOuts s.outs km.1.id (km.2.stepCall time st ins).2,
            stepped := s.stepped ++ [km.1.id],
            calls := s.calls ++ [c0] } := by
        rw [passZeroStep, if_pos hc]
      by_cases hw : c0.writes k = true
      · refine Or.inr ⟨c0, ?_, hw⟩
        rw [passZero_go_calls, hs']
        dsimp only
        exact List.mem_append_left _ (List.mem_append_right _ (List.mem_singleton_self c0))
      · have hb : c0.writes k = false := by
          simp only [Bool.not_eq_true] at hw
          exact hw
        refine ih (passZeroStep patches time st s km) k v ?_
        rw [hs']
        dsimp only
        rw [outsFind_insertOuts_ne km.1.id s.outs _ k ?_]
        · exact h
        · intro j hj
          exact writes_false_ne c0 k hb j hj
    · have hs' : passZeroStep patches time st s km = { s with mods := s.mods ++ [km] } := by
        rw [passZeroStep, if_neg hc]
      refine ih _ k v ?_
      rw [hs']
      exact h

/-! ## Lemmas about the resolution scan -/

theorem contains_iff_mem (l : List Nat) (a : Nat) : l.contains a = true ↔ a ∈ l := by
  simp [List.contains, List.elem_iff]

theorem scanStep_skip (patches : Patches) (time : ℚ) (st : StepType)
    (s : TickState × Nat) (km : ModuleKey × Module)
    (h : s.1.stepped.contains km.1.id = true) :
    scanStep patches time st s km = ({ s.1 with mods := s.1.mods ++ [km] }, s.2) := by
  rw [scanStep]
  dsimp only
  rw [if_pos h]

theorem scanStep_notReady (patches : Patches) (time : ℚ) (st : StepType)
    (s : TickState × Nat) (km : ModuleKey × Module)
    (h1 : ¬s.1.stepped.contains km.1.id = true)
    (h2 : ¬ready s.1.outs (inPatches patches km.1.id) = true) :
    scanStep patches time st s km = ({ s.1 with mods := s.1.mods ++ [km] }, s.2) := by
  rw [scanStep]
  dsimp only
  rw [if_neg h1, if_neg h2]

theorem scanStep_run (patches : Patches) (time : ℚ) (st : StepType)
    (s : TickState × Nat) (km : ModuleKey × Module)
    (h1 : ¬s.1.stepped.contains km.1.id = true)
    (h2 : ready s.1.outs (inPatches patches km.1.id) = true) :
    scanStep patches time st s km =
      ({ mods := s.1.mods ++ [(km.1,
           ((applyPatches s.1.outs km.2 (inPatches patches km.1.id)).1.stepCall time st
             (applyPatches s.1.outs km.2 (inPatches patches km.1.id)).2).1)],
         outs := insertOuts s.1.outs km.1.id
           ((applyPatches s.1.outs km.2 (inPatches patches km.1.id)).1.stepCall time st
             (applyPatches s.1.outs km.2 (inPatches patches km.1.id)).2).2,
         stepped := s.1.stepped ++ [km.1.id],
         calls := s.1.calls ++ [⟨km.1.id,
           (applyPatches s.1.outs km.2 (inPatches patches km.1.id)).2,
           ((applyPatches s.1.outs km.2 (inPatches patches km.1.id)).1.stepCall time st
             (applyPatches s.1.outs km.2 (inPatches patches km.1.id)).2).2⟩] },
       s.2 + 0) := by
  rw [scanStep]
  dsimp only
  rw [if_neg h1, if_pos h2]

theorem scan_go_cnt (patches : Patches) (time : ℚ) (st : StepType)
    (l : List (ModuleKey × Module)) :
    ∀ s : TickState × Nat, (List.foldl (scanStep patches time st) s l).2 = s.2 := by
  induction l with
  | nil => intro s; rfl
  | cons km l ih =>
    intro s
    rw [List.foldl_cons, ih]
    by_cases h1 : s.1.stepped.contains km.1.id = true
    · rw [scanStep_skip patches time st s km h1]
    · by_cases h2 : ready s.1.outs (inPatches patches km.1.id) = true
      · rw [scanStep_run patches time st s km h1 h2]
        rfl
      · rw [scanStep_notReady patches time st s km h1 h2]

theorem scan_go_callsIds (patches : Patches) (time : ℚ) (st : StepType)
    (l : List (ModuleKey × Module)) :
    ∀ s : TickState × Nat, s.1.calls.map Call.id = s.1.stepped →
    (List.foldl (scanStep patches time st) s l).1.calls.map Call.id =
      (List.foldl (scanStep patches time st) s l).1.stepped := by
  induction l with
  | nil => intro s h; exact h
  | cons km l ih =>
    intro s h
    rw [List.foldl_cons]
    by_cases h1 : s.1.stepped.contains km.1.id = true
    · rw [scanStep_skip patches time st s km h1]
      exact ih _ h
    · by_cases h2 : ready s.1.outs (inPatches patches km.1.id) = true
      · rw [scanStep_run patches time st s km h1 h2]
        refine ih _ ?_
        dsimp only
        rw [List.map_append, h]
        rfl
      · rw [scanStep_notReady patches time st s km h1 h2]
        exact ih _ h

theorem scan_go_stepped_mono (patches : Patches) (time : ℚ) (st : StepType)
    (l : List (ModuleKey × Module)) :
    ∀ (s : TickState × Nat) (x : Nat), x ∈ s.1.stepped →
    x ∈ (List.foldl (scanStep patches time st) s l).1.stepped := by
  induction l with
  | nil => intro s x h; exact h
  | cons km l ih =>
    intro s x h
    rw [List.foldl_cons]
    by_cases h1 : s.1.stepped.contains km.1.id = true
    · rw [scanStep_skip patches time st s km h1]
      exact ih _ x h
    · by_cases h2 : ready s.1.outs (inPatches patches km.1.id) = true
      · rw [scanStep_run patches time st s km h1 h2]
        exact ih _ x (List.mem_append_left _ h)
      · rw [scanStep_notReady patches time st s km h1 h2]
        exact ih _ x h

theorem scan_go_calls_mono (patches : Patches) (time : ℚ) (st : StepType)
    (l : List (ModuleKey × Module)) :
    ∀ (s : TickState × Nat) (c : Call), c ∈ s.1.calls →
    c ∈ (List.foldl (scanStep patches time st) s l).1.calls := by
  induction l with
  | nil => intro s c h; exact h
  | cons km l ih =>
    intro s c h
    rw [List.foldl_cons]
    by_cases h1 : s.1.stepped.contains km.1.id = true
    · rw [scanStep_skip patches time st s km h1]
      exact ih _ c h
    · by_cases h2 : ready s.1.outs (inPatches patches km.1.id) = true
      · rw [scanStep_run patches time st s km h1 h2]
        exact ih _ c (List.mem_append_left _ h)
      · rw [scanStep_notReady patches time st s km h1 h2]
        exact ih _ c h

theorem scan_go_nodup (patches : Patches) (time : ℚ) (st : StepType)
    (l : List (ModuleKey × Module)) :
    ∀ s : TickState × Nat, s.1.stepped.Nodup →
    (List.foldl (scanStep patches time st) s l).1.stepped.Nodup := by
  induction l with
  | nil => intro s h; exact h
  | cons km l ih =>
    intro s h
    rw [List.foldl_cons]
    by_cases h1 : s.1.stepped.contains km.1.id = true
    · rw [scanStep_skip patches time st s km h1]
      exact ih _ h
    · by_cases h2 : ready s.1.outs (inPatches patches km.1.id) = true
      · rw [scanStep_run patches time st s km h1 h2]
        refine ih _ ?_
        dsimp only
        have hnm : km.1.id ∉ s.1.stepped := by
          intro hm
          exact h1 ((contains_iff_mem _ _).mpr hm)
        have hperm := List.perm_append_singleton km.1.id s.1.stepped
        rw [hperm.nodup_iff, List.nodup_cons]
        exact ⟨hnm, h⟩
      · rw [scanStep_notReady patches time st s km h1 h2]
        exact ih _ h

theorem scan_go_stepped_sub (patches : Patches) (time : ℚ) (st : StepType)
    (l : List (ModuleKey × Module)) :
    ∀ (s : TickState × Nat) (x : Nat),
    x ∈ (List.foldl (scanStep patches time st) s l).1.stepped →
    x ∈ s.1.stepped ∨ ∃ km ∈ l, x = km.1.id := by
  induction l with
  | nil => intro s x h; exact Or.inl h
  | cons km l ih =>
    intro s x h
    rw [List.foldl_cons] at h
    by_cases h1 : s.1.stepped.contains km.1.id = true
    · rw [scanStep_skip patches time st s km h1] at h
      rcases ih _ x h with hl | ⟨km', hm, he⟩
      · exact Or.inl hl
      · exact Or.inr ⟨km', List.mem_cons_of_mem km hm, he⟩
    · by_cases h2 : ready s.1.outs (inPatches patches km.1.id) = true
      · rw [scanStep_run patches time st s km h1 h2] at h
        rcases ih _ x h with hl | ⟨km', hm, he⟩
        · rcases List.mem_append.mp hl with hl1 | hl2
          · exact Or.inl hl1
          · refine Or.inr ⟨km, List.mem_cons_self km l, ?_⟩
            simpa using hl2
        · exact Or.inr ⟨km', List.mem_cons_of_mem km hm, he⟩
      · rw [scanStep_notReady patches time st s km h1 h2] at h
        rcases ih _ x h with hl | ⟨km', hm, he⟩
        · exact Or.inl hl
        · exact Or.inr ⟨km', List.mem_cons_of_mem km hm, he⟩

theorem scan_go_contains_mono (patches : Patches) (time : ℚ) (st : StepType)
    (l : List (ModuleKey × Module)) :
    ∀ (s : TickState × Nat) (k : ModuleKey), outsContains s.1.outs k = true →
    outsContains (List.foldl (scanStep patches time st) s l).1.outs k = true := by
  induction l with
  | nil => intro s k h; exact h
  | cons km l ih =>
    intro s k h
    rw [List.foldl_cons]
    by_cases h1 : s.1.stepped.contains km.1.id = true
    · rw [scanStep_skip patches time st s km h1]
      exact ih _ k h
    · by_cases h2 : ready s.1.outs (inPatches patches km.1.id) = true
      · rw [scanStep_run patches time st s km h1 h2]
        exact ih _ k (outsContains_insertOutsFrom_mono km.1.id _ s.1.outs 0 k h)
      · rw [scanStep_notReady patches time st s km h1 h2]
        exact ih _ k h

theorem scan_go_shapes (patches : Patches) (time : ℚ) (st : StepType)
    (l : List (ModuleKey × Module)) :
    ∀ s : TickState × Nat,
    (List.foldl (scanStep patches time st) s l).1.mods.map shapeKV =
      s.1.mods.map shapeKV ++ l.map shapeKV := by
  induction l with
  | nil => intro s; simp
  | cons km l ih =>
    intro s
    rw [List.foldl_cons, List.map_cons]
    by_cases h1 : s.1.stepped.contains km.1.id = true
    · rw [scanStep_skip patches time st s km h1, ih]
      simp
    · by_cases h2 : ready s.1.outs (inPatches patches km.1.id) = true
      · rw [scanStep_run patches time st s km h1 h2, ih]
        dsimp only
        rw [List.map_append]
        have hsh := applyPatches_shape s.1.outs km.2 (inPatches patches km.1.id)
        have : shapeKV (km.1,
            ((applyPatches s.1.outs km.2 (inPatches patches km.1.id)).1.stepCall time st
              (applyPatches s.1.outs km.2 (inPatches patches km.1.id)).2).1) = shapeKV km := by
          rw [shapeKV, shapeKV, Module.stepCall]
          dsimp only
          rw [hsh.1, hsh.2.1]
        rw [List.map_singleton, this]
        simp
      · rw [scanStep_notReady patches time st s km h1 h2, ih]
        simp

theorem scan_go_complete (patches : Patches) (time : ℚ) (st : StepType)
    (l : List (ModuleKey × Module)) :
    ∀ s : TickState × Nat,
    (∀ p ∈ patches, outsContains s.1.outs p.1 = true) →
    ∀ km ∈ l, km.1.id ∈ (List.foldl (scanStep patches time st) s l).1.stepped := by
  induction l with
  | nil => intro s _ km hm; simp at hm
  | cons km0 l ih =>
    intro s hpres km hm
    rw [List.foldl_cons]
    by_cases h1 : s.1.stepped.contains km0.1.id = true
    · rw [scanStep_skip patches time st s km0 h1]
      rcases List.mem_cons.mp hm with he | hm'
      · subst he
        exact scan_go_stepped_mono patches time st l _ km.1.id
          ((contains_iff_mem _ _).mp h1)
      · exact ih ({ s.1 with mods := s.1.mods ++ [km0] }, s.2) hpres km hm'
    · by_cases h2 : ready s.1.outs (inPatches patches km0.1.id) = true
      · rw [scanStep_run patches time st s km0 h1 h2]
        have hpres' : ∀ p ∈ patches,
            outsContains (insertOuts s.1.outs km0.1.id
              ((applyPatches s.1.outs km0.2 (inPatches patches km0.1.id)).1.stepCall time st
                (applyPatches s.1.outs km0.2 (inPatches patches km0.1.id)).2).2) p.1 = true :=
          fun p hp => outsContains_insertOutsFrom_mono km0.1.id _ s.1.outs 0 p.1 (hpres p hp)
        rcases List.mem_cons.mp hm with he | hm'
        · subst he
          refine scan_go_stepped_mono patches time st l _ km.1.id ?_
          exact List.mem_append_right _ (List.mem_singleton_self km.1.id)
        · exact ih _ hpres' km hm'
      · exfalso
        refine h2 ?_
        rw [ready, List.all_eq_true]
        intro p hp
        exact hpres p (List.mem_filter.mp hp).1


theorem scan_go_frame (patches : Patches) (time : ℚ) (st : StepType)
    (l : List (ModuleKey × Module)) :
    ∀ (s : TickState × Nat) (k : ModuleKey) (v : Val),
    outsFind s.1.outs k = some v →
    outsFind (List.foldl (scanStep patches time st) s l).1.outs k = some v ∨
    ∃ c ∈ (List.foldl (scanStep patches time st) s l).1.calls,
      c.writes k = true := by
  induction l with
  | nil => intro s k v h; exact Or.inl h
  | cons km l ih =>
    intro s k v h
    rw [List.foldl_cons]
    by_cases h1 : s.1.stepped.contains km.1.id = true
    · rw [scanStep_skip patches time st s km h1]
      exact ih _ k v h
    · by_cases h2 : ready s.1.outs (inPatches patches km.1.id) = true
      · rw [scanStep_run patches time st s km h1 h2]
        set c0 : Call := ⟨km.1.id,
          (applyPatches s.1.outs km.2 (inPatches patches km.1.id)).2,
          ((applyPatches s.1.outs km.2 (inPatches patches km.1.id)).1.stepCall time st
            (applyPatches s.1.outs km.2 (inPatches patches km.1.id)).2).2⟩ with hc0
        by_cases hw : c0.writes k = true
        · refine Or.inr ⟨c0, ?_, hw⟩
          refine scan_go_calls_mono patches time st l _ c0 ?_
          exact List.mem_append_right _ (List.mem_singleton_self c0)
        · have hb : c0.writes k = false := by
            simp only [Bool.not_eq_true] at hw
            exact hw
          refine ih _ k v ?_
          dsimp only
          rw [outsFind_insertOuts_ne km.1.id s.1.outs _ k
            (fun j hj => writes_false_ne c0 k hb j hj)]
          exact h
      · rw [scanStep_notReady patches time st s km h1 h2]
        exact ih _ k v h

theorem scan_go_unpatched (patches : Patches) (time : ℚ) (st : StepType)
    (id0 i0 : Nat)
    (hnp : ∀ p ∈ patches, p.2 ≠ ModuleKey.mk id0 (ModuleIOK.input i0))
    (l : List (ModuleKey × Module)) :
    ∀ s : TickState × Nat,
    (∀ km ∈ l, km.1.id = id0 → i0 < km.2.numInputs) →
    (∀ c ∈ s.1.calls, c.id = id0 → c.ins.get? i0 = some Val.nan) →
    ∀ c ∈ (List.foldl (scanStep patches time st) s l).1.calls, c.id = id0 →
      c.ins.get? i0 = some Val.nan := by
  induction l with
  | nil => intro s _ hInv c hc hcid; exact hInv c hc hcid
  | cons km l ih =>
    intro s hsh hInv
    rw [List.foldl_cons]
    by_cases h1 : s.1.stepped.contains km.1.id = true
    · rw [scanStep_skip patches time st s km h1]
      exact ih _ (fun q hq => hsh q (List.mem_cons_of_mem km hq)) hInv
    · by_cases h2 : ready s.1.outs (inPatches patches km.1.id) = true
      · rw [scanStep_run patches time st s km h1 h2]
        refine ih _ (fun q hq => hsh q (List.mem_cons_of_mem km hq)) ?_
        intro c hc hcid
        rcases List.mem_append.mp hc with hold | hnew
        · exact hInv c hold hcid
        · have hce : c = ⟨km.1.id,
              (applyPatches s.1.outs km.2 (inPatches patches km.1.id)).2,
              ((applyPatches s.1.outs km.2 (inPatches patches km.1.id)).1.stepCall time st
                (applyPatches s.1.outs km.2 (inPatches patches km.1.id)).2).2⟩ := by
            simpa using hnew
          subst hce
          have hkmid : km.1.id = id0 := hcid
          have hr : i0 < km.2.numInputs := hsh km (List.mem_cons_self km l) hkmid
          refine applyPatches_get_unpatched s.1.outs km.2 _ i0 ?_ hr
          intro p hp he
          have hpm := List.mem_filter.mp hp
          have hpid : p.2.id = km.1.id := by
            have := hpm.2
            simpa using this
          refine hnp p hpm.1 ?_
          cases hp2 : p.2 with
          | mk pid piok =>
            rw [hp2] at hpid he
            simp at hpid he
            rw [hpid, he, hkmid]
      · rw [scanStep_notReady patches time st s km h1 h2]
        exact ih _ (fun q hq => hsh q (List.mem_cons_of_mem km hq)) hInv

theorem inPatches_filter (patches : Patches) (id0 : Nat) (tk : ModuleKey)
    (htk : tk.id = id0) :
    (inPatches patches id0).filter (fun p => p.2 == tk) =
      patches.filter (fun p => p.2 == tk) := by
  rw [inPatches]
  induction patches with
  | nil => rfl
  | cons p ps ih =>
    rw [List.filter_cons, List.filter_cons]
    by_cases h : p.2 = tk
    · rw [if_pos (by simp [h, htk]), List.filter_cons, if_pos (by simp [h]), ih]
      rw [if_pos (by simp [h])]
    · by_cases hid : p.2.id = id0
      · rw [if_pos (by simp [hid]), List.filter_cons, if_neg (by simp [h]), ih]
        rw [if_neg (by simp [h])]
      · rw [if_neg (by simp [hid]), ih, if_neg (by simp [h])]

theorem scan_go_c4 (patches : Patches) (time : ℚ) (st : StepType)
    (srcKey : ModuleKey) (d1 i1 d2 i2 : Nat)
    (hfil1 : patches.filter (fun p => p.2 == ModuleKey.mk d1 (ModuleIOK.input i1)) =
      [(srcKey, ModuleKey.mk d1 (ModuleIOK.input i1))])
    (hfil2 : patches.filter (fun p => p.2 == ModuleKey.mk d2 (ModuleIOK.input i2)) =
      [(srcKey, ModuleKey.mk d2 (ModuleIOK.input i2))])
    (l : List (ModuleKey × Module)) :
    ∀ s : TickState × Nat,
    srcKey.id ∈ s.1.stepped →
    (∀ km ∈ l, km.1.id = d1 → i1 < km.2.numInputs) →
    (∀ km ∈ l, km.1.id = d2 → i2 < km.2.numInputs) →
    C4Inv srcKey d1 i1 d2 i2 s.1.outs s.1.calls →
    C4Inv srcKey d1 i1 d2 i2
      (List.foldl (scanStep patches time st) s l).1.outs
      (List.foldl (scanStep patches time st) s l).1.calls := by
  induction l with
  | nil => intro s _ _ _ hInv; exact hInv
  | cons km l ih =>
    intro s hsrc hsh1 hsh2 hInv
    rw [List.foldl_cons]
    by_cases h1 : s.1.stepped.contains km.1.id = true
    · rw [scanStep_skip patches time st s km h1]
      exact ih _ hsrc (fun q hq => hsh1 q (List.mem_cons_of_mem km hq))
        (fun q hq => hsh2 q (List.mem_cons_of_mem km hq)) hInv
    · by_cases h2 : ready s.1.outs (inPatches patches km.1.id) = true
      · rw [scanStep_run patches time st s km h1 h2]
        have hkms : km.1.id ≠ srcKey.id := by
          intro he
          exact h1 ((contains_iff_mem _ _).mpr (he ▸ hsrc))
        have houts : ∀ w : Val, outsFind s.1.outs srcKey = some w →
            outsFind (insertOuts s.1.outs km.1.id
              ((applyPatches s.1.outs km.2 (inPatches patches km.1.id)).1.stepCall time st
                (applyPatches s.1.outs km.2 (inPatches patches km.1.id)).2).2) srcKey = some w := by
          intro w hw
          rw [outsFind_insertOuts_ne km.1.id s.1.outs _ srcKey ?_]
          · exact hw
          · intro j _ he
            exact hkms (by rw [he])
        refine ih _ (List.mem_append_left _ hsrc)
          (fun q hq => hsh1 q (List.mem_cons_of_mem km hq))
          (fun q hq => hsh2 q (List.mem_cons_of_mem km hq)) ?_
        intro c hc
        rcases List.mem_append.mp hc with hold | hnew
        · obtain ⟨hcd1, hcd2⟩ := hInv c hold
          constructor
          · intro hid
            obtain ⟨v, hv1, hv2⟩ := hcd1 hid
            exact ⟨v, houts v hv1, hv2⟩
          · intro hid
            obtain ⟨v, hv1, hv2⟩ := hcd2 hid
            exact ⟨v, houts v hv1, hv2⟩
        · have hce : c = ⟨km.1.id,
              (applyPatches s.1.outs km.2 (inPatches patches km.1.id)).2,
              ((applyPatches s.1.outs km.2 (inPatches patches km.1.id)).1.stepCall time st
                (applyPatches s.1.outs km.2 (inPatches patches km.1.id)).2).2⟩ := by
            simpa using hnew
          subst hce
          have hdest : ∀ p ∈ inPatches patches km.1.id, p.2.id = km.1.id := by
            intro p hp
            have := (List.mem_filter.mp hp).2
            simpa using this
          constructor
          · intro hid
            have hkid : km.1.id = d1 := hid
            have hp1 : (srcKey, ModuleKey.mk d1 (ModuleIOK.input i1)) ∈
                inPatches patches km.1.id := by
              refine List.mem_filter.mpr ⟨?_, by simp [hkid]⟩
              have hmem : (srcKey, ModuleKey.mk d1 (ModuleIOK.input i1)) ∈
                  patches.filter (fun p => p.2 == ModuleKey.mk d1 (ModuleIOK.input i1)) := by
                rw [hfil1]
                exact List.mem_singleton_self _
              exact (List.mem_filter.mp hmem).1
            have hcont : outsContains s.1.outs srcKey = true := by
              rw [ready, List.all_eq_true] at h2
              have := h2 _ hp1
              simpa using this
            obtain ⟨v, hv⟩ := (outsContains_iff_find s.1.outs srcKey).mp hcont
            refine ⟨v, houts v hv, ?_⟩
            refine applyPatches_get_patched s.1.outs km.2 _ km.1.id i1 srcKey v hv
              hdest ?_ (hsh1 km (List.mem_cons_self km l) hkid)
            rw [hkid]
            rw [inPatches_filter patches d1 (ModuleKey.mk d1 (ModuleIOK.input i1)) rfl]
            exact hfil1
          · intro hid
            have hkid : km.1.id = d2 := hid
            have hp1 : (srcKey, ModuleKey.mk d2 (ModuleIOK.input i2)) ∈
                inPatches patches km.1.id := by
              refine List.mem_filter.mpr ⟨?_, by simp [hkid]⟩
              have hmem : (srcKey, ModuleKey.mk d2 (ModuleIOK.input i2)) ∈
                  patches.filter (fun p => p.2 == ModuleKey.mk d2 (ModuleIOK.input i2)) := by
                rw [hfil2]
                exact List.mem_singleton_self _
              exact (List.mem_filter.mp hmem).1
            have hcont : outsContains s.1.outs srcKey = true := by
              rw [ready, List.all_eq_true] at h2
              have := h2 _ hp1
              simpa using this
            obtain ⟨v, hv⟩ := (outsContains_iff_find s.1.outs srcKey).mp hcont
            refine ⟨v, houts v hv, ?_⟩
            refine applyPatches_get_patched s.1.outs km.2 _ km.1.id i2 srcKey v hv
              hdest ?_ (hsh2 km (List.mem_cons_self km l) hkid)
            rw [hkid]
            rw [inPatches_filter patches d2 (ModuleKey.mk d2 (ModuleIOK.input i2)) rfl]
            exact hfil2
      · rw [scanStep_notReady patches time st s km h1 h2]
        exact ih _ hsrc (fun q hq => hsh1 q (List.mem_cons_of_mem km hq))
          (fun q hq => hsh2 q (List.mem_cons_of_mem km hq)) hInv

/-! ## Lemmas about the resolution loop -/

theorem modIds_of_shapes (mods1 mods2 : List (ModuleKey × Module))
    (h : mods1.map shapeKV = mods2.map shapeKV) : modIds mods1 = modIds mods2 := by
  have h1 := congrArg (List.map (fun x : ModuleKey × Nat × Nat => x.1.id)) h
  rw [List.map_map, List.map_map] at h1
  exact h1

theorem scan_cnt (patches : Patches) (time : ℚ) (st : StepType) (ts : TickState) :
    (scan patches time st ts).2 = 0 := by
  rw [scan]
  exact scan_go_cnt patches time st ts.mods _

theorem scan_shapes (patches : Patches) (time : ℚ) (st : StepType) (ts : TickState) :
    (scan patches time st ts).1.mods.map shapeKV = ts.mods.map shapeKV := by
  rw [scan, scan_go_shapes]
  rfl

theorem loopBody_eq (patches : Patches) (time : ℚ) (st : StepType) (ls : LoopState) :
    loopBody patches time st ls =
      { ts := { (scan patches time st ls.ts).1 with
          outs := (materialize patches (scan patches time st ls.ts).1.outs).1 },
        iters := ls.iters ++
          [((scan patches time st ls.ts).1.stepped.length - ls.ts.stepped.length,
            (materialize patches (scan patches time st ls.ts).1.outs).2)],
        exhausted := ls.exhausted } := by
  rw [loopBody]
  dsimp only
  rw [if_pos (by rw [scan_cnt]; rfl)]

theorem loopBody_exhausted (patches : Patches) (time : ℚ) (st : StepType)
    (ls : LoopState) : (loopBody patches time st ls).exhausted = ls.exhausted := by
  rw [loopBody_eq]

theorem loopBody_allPresent (patches : Patches) (time : ℚ) (st : StepType)
    (ls : LoopState) :
    ∀ p ∈ patches, outsContains (loopBody patches time st ls).ts.outs p.1 = true := by
  rw [loopBody_eq]
  intro p hp
  exact materialize_allPresent patches _ p hp

theorem loopBody_shapes (patches : Patches) (time : ℚ) (st : StepType)
    (ls : LoopState) :
    (loopBody patches time st ls).ts.mods.map shapeKV = ls.ts.mods.map shapeKV := by
  rw [loopBody_eq]
  exact scan_shapes patches time st ls.ts

theorem loopBody_stepped (patches : Patches) (time : ℚ) (st : StepType)
    (ls : LoopState) :
    (loopBody patches time st ls).ts.stepped = (scan patches time st ls.ts).1.stepped := by
  rw [loopBody_eq]

theorem loopBody_calls (patches : Patches) (time : ℚ) (st : StepType)
    (ls : LoopState) :
    (loopBody patches time st ls).ts.calls = (scan patches time st ls.ts).1.calls := by
  rw [loopBody_eq]

theorem loopBody_nodup (patches : Patches) (time : ℚ) (st : StepType)
    (ls : LoopState) (h : ls.ts.stepped.Nodup) :
    (loopBody patches time st ls).ts.stepped.Nodup := by
  rw [loopBody_stepped, scan]
  exact scan_go_nodup patches time st ls.ts.mods _ h

theorem loopBody_callsIds (patches : Patches) (time : ℚ) (st : StepType)
    (ls : LoopState) (h : ls.ts.calls.map Call.id = ls.ts.stepped) :
    (loopBody patches time st ls).ts.calls.map Call.id =
      (loopBody patches time st ls).ts.stepped := by
  rw [loopBody_stepped, loopBody_calls, scan]
  exact scan_go_callsIds patches time st ls.ts.mods _ h

theorem loopBody_stepped_mono (patches : Patches) (time : ℚ) (st : StepType)
    (ls : LoopState) (x : Nat) (h : x ∈ ls.ts.stepped) :
    x ∈ (loopBody patches time st ls).ts.stepped := by
  rw [loopBody_stepped, scan]
  exact scan_go_stepped_mono patches time st ls.ts.mods _ x h

theorem loopBody_calls_mono (patches : Patches) (time : ℚ) (st : StepType)
    (ls : LoopState) (c : Call) (h : c ∈ ls.ts.calls) :
    c ∈ (loopBody patches time st ls).ts.calls := by
  rw [loopBody_calls, scan]
  exact scan_go_calls_mono patches time st ls.ts.mods _ c h

theorem loopBody_stepped_sub (patches : Patches) (time : ℚ) (st : StepType)
    (ls : LoopState) (x : Nat)
    (h : x ∈ (loopBody patches time st ls).ts.stepped) :
    x ∈ ls.ts.stepped ∨ x ∈ modIds ls.ts.mods := by
  rw [loopBody_stepped, scan] at h
  rcases scan_go_stepped_sub patches time st ls.ts.mods _ x h with h1 | ⟨km, hm, he⟩
  · exact Or.inl h1
  · exact Or.inr (by rw [he]; exact List.mem_map_of_mem _ hm)

theorem loopBody_frame (patches : Patches) (time : ℚ) (st : StepType)
    (ls : LoopState) (k : ModuleKey) (v : Val)
    (h : outsFind ls.ts.outs k = some v) :
    outsFind (loopBody patches time st ls).ts.outs k = some v ∨
    ∃ c ∈ (loopBody patches time st ls).ts.calls, c.writes k = true := by
  rw [loopBody_eq]
  dsimp only
  rcases scan_go_frame patches time st ls.ts.mods ({ ls.ts with mods := [] }, 0) k v h
    with h1 | ⟨c, hc, hw⟩
  · exact Or.inl (materialize_find_present patches _ k v (by rw [scan]; exact h1))
  · refine Or.inr ⟨c, ?_, hw⟩
    rw [scan]
    exact hc

theorem loopBody_complete (patches : Patches) (time : ℚ) (st : StepType)
    (ls : LoopState) (hpres : ∀ p ∈ patches, outsContains ls.ts.outs p.1 = true) :
    ∀ x ∈ modIds ls.ts.mods, x ∈ (loopBody patches time st ls).ts.stepped := by
  intro x hx
  obtain ⟨km, hm, he⟩ := List.mem_map.mp hx
  rw [loopBody_stepped, scan]
  rw [← he]
  exact scan_go_complete patches time st ls.ts.mods _ hpres km hm

theorem loopBody_unpatchedInv (patches : Patches) (time : ℚ) (st : StepType)
    (id0 i0 : Nat)
    (hnp : ∀ p ∈ patches, p.2 ≠ ModuleKey.mk id0 (ModuleIOK.input i0))
    (ls : LoopState)
    (hsh : ∀ km ∈ ls.ts.mods, km.1.id = id0 → i0 < km.2.numInputs)
    (hInv : ∀ c ∈ ls.ts.calls, c.id = id0 → c.ins.get? i0 = some Val.nan) :
    ∀ c ∈ (loopBody patches time st ls).ts.calls, c.id = id0 →
      c.ins.get? i0 = some Val.nan := by
  rw [loopBody_calls, scan]
  exact scan_go_unpatched patches time st id0 i0 hnp ls.ts.mods _ hsh hInv

theorem loopBody_c4Inv (patches : Patches) (time : ℚ) (st : StepType)
    (srcKey : ModuleKey) (d1 i1 d2 i2 : Nat)
    (hfil1 : patches.filter (fun p => p.2 == ModuleKey.mk d1 (ModuleIOK.input i1)) =
      [(srcKey, ModuleKey.mk d1 (ModuleIOK.input i1))])
    (hfil2 : patches.filter (fun p => p.2 == ModuleKey.mk d2 (ModuleIOK.input i2)) =
      [(srcKey, ModuleKey.mk d2 (ModuleIOK.input i2))])
    (ls : LoopState)
    (hsrc : srcKey.id ∈ ls.ts.stepped)
    (hsh1 : ∀ km ∈ ls.ts.mods, km.1.id = d1 → i1 < km.2.numInputs)
    (hsh2 : ∀ km ∈ ls.ts.mods, km.1.id = d2 → i2 < km.2.numInputs)
    (hInv : C4Inv srcKey d1 i1 d2 i2 ls.ts.outs ls.ts.calls) :
    C4Inv srcKey d1 i1 d2 i2 (loopBody patches time st ls).ts.outs
      (loopBody patches time st ls).ts.calls := by
  rw [loopBody_eq]
  dsimp only
  have hscan : C4Inv srcKey d1 i1 d2 i2 (scan patches time st ls.ts).1.outs
      (scan patches time st ls.ts).1.calls := by
    rw [scan]
    exact scan_go_c4 patches time st srcKey d1 i1 d2 i2 hfil1 hfil2 ls.ts.mods _
      hsrc hsh1 hsh2 hInv
  intro c hc
  obtain ⟨hc1, hc2⟩ := hscan c hc
  constructor
  · intro hid
    obtain ⟨v, hv1, hv2⟩ := hc1 hid
    exact ⟨v, materialize_find_present patches _ srcKey v hv1, hv2⟩
  · intro hid
    obtain ⟨v, hv1, hv2⟩ := hc2 hid
    exact ⟨v, materialize_find_present patches _ srcKey v hv1, hv2⟩

theorem stepLoop_done (patches : Patches) (time : ℚ) (st : StepType)
    (nMods : Nat) (fuel : Nat) (ls : LoopState)
    (h : ¬ls.ts.stepped.length < nMods) :
    stepLoop patches time st nMods fuel ls = ls := by
  cases fuel with
  | zero => rw [stepLoop, if_neg h]
  | succ f => rw [stepLoop, if_neg h]

theorem shape_prop_transfer (mods1 mods2 : List (ModuleKey × Module))
    (h : mods1.map shapeKV = mods2.map shapeKV)
    (P : ModuleKey × Nat × Nat → Prop)
    (hp : ∀ km ∈ mods2, P (shapeKV km)) : ∀ km ∈ mods1, P (shapeKV km) := by
  intro km hm
  have hmem : shapeKV km ∈ mods1.map shapeKV := List.mem_map_of_mem _ hm
  rw [h] at hmem
  obtain ⟨km2, hm2, he⟩ := List.mem_map.mp hmem
  rw [← he]
  exact hp km2 hm2

theorem stepLoop_calls_mono (patches : Patches) (time : ℚ) (st : StepType)
    (nMods : Nat) :
    ∀ (fuel : Nat) (ls : LoopState) (c : Call), c ∈ ls.ts.calls →
    c ∈ (stepLoop patches time st nMods fuel ls).ts.calls := by
  intro fuel
  induction fuel with
  | zero =>
    intro ls c h
    rw [stepLoop]
    by_cases hlt : ls.ts.stepped.length < nMods
    · rw [if_pos hlt]; exact h
    · rw [if_neg hlt]; exact h
  | succ f ih =>
    intro ls c h
    rw [stepLoop]
    by_cases hlt : ls.ts.stepped.length < nMods
    · rw [if_pos hlt]
      exact ih _ c (loopBody_calls_mono patches time st ls c h)
    · rw [if_neg hlt]; exact h

theorem stepLoop_stepped_mono (patches : Patches) (time : ℚ) (st : StepType)
    (nMods : Nat) :
    ∀ (fuel : Nat) (ls : LoopState) (x : Nat), x ∈ ls.ts.stepped →
    x ∈ (stepLoop patches time st nMods fuel ls).ts.stepped := by
  intro fuel
  induction fuel with
  | zero =>
    intro ls x h
    rw [stepLoop]
    by_cases hlt : ls.ts.stepped.length < nMods
    · rw [if_pos hlt]; exact h
    · rw [if_neg hlt]; exact h
  | succ f ih =>
    intro ls x h
    rw [stepLoop]
    by_cases hlt : ls.ts.stepped.length < nMods
    · rw [if_pos hlt]
      exact ih _ x (loopBody_stepped_mono patches time st ls x h)
    · rw [if_neg hlt]; exact h

theorem stepLoop_frame (patches : Patches) (time : ℚ) (st : StepType)
    (nMods : Nat) :
    ∀ (fuel : Nat) (ls : LoopState) (k : ModuleKey) (v : Val),
    outsFind ls.ts.outs k = some v →
    outsFind (stepLoop patches time st nMods fuel ls).ts.outs k = some v ∨
    ∃ c ∈ (stepLoop patches time st nMods fuel ls).ts.calls,
      c.writes k = true := by
  intro fuel
  induction fuel with
  | zero =>
    intro ls k v h
    rw [stepLoop]
    by_cases hlt : ls.ts.stepped.length < nMods
    · rw [if_pos hlt]; exact Or.inl h
    · rw [if_neg hlt]; exact Or.inl h
  | succ f ih =>
    intro ls k v h
    rw [stepLoop]
    by_cases hlt : ls.ts.stepped.length < nMods
    · rw [if_pos hlt]
      rcases loopBody_frame patches time st ls k v h with h1 | ⟨c, hc, hw⟩
      · exact ih _ k v h1
      · exact Or.inr ⟨c, stepLoop_calls_mono patches time st nMods f _ c hc, hw⟩
    · rw [if_neg hlt]; exact Or.inl h

theorem stepLoop_shapes (patches : Patches) (time : ℚ) (st : StepType)
    (nMods : Nat) :
    ∀ (fuel : Nat) (ls : LoopState),
    (stepLoop patches time st nMods fuel ls).ts.mods.map shapeKV =
      ls.ts.mods.map shapeKV := by
  intro fuel
  induction fuel with
  | zero =>
    intro ls
    rw [stepLoop]
    by_cases hlt : ls.ts.stepped.length < nMods
    · rw [if_pos hlt]
    · rw [if_neg hlt]
  | succ f ih =>
    intro ls
    rw [stepLoop]
    by_cases hlt : ls.ts.stepped.length < nMods
    · rw [if_pos hlt, ih]
      exact loopBody_shapes patches time st ls
    · rw [if_neg hlt]

theorem stepLoop_callsIds (patches : Patches) (time : ℚ) (st : StepType)
    (nMods : Nat) :
    ∀ (fuel : Nat) (ls : LoopState),
    ls.ts.calls.map Call.id = ls.ts.stepped →
    (stepLoop patches time st nMods fuel ls).ts.calls.map Call.id =
      (stepLoop patches time st nMods fuel ls).ts.stepped := by
  intro fuel
  induction fuel with
  | zero =>
    intro ls h
    rw [stepLoop]
    by_cases hlt : ls.ts.stepped.length < nMods
    · rw [if_pos hlt]; exact h
    · rw [if_neg hlt]; exact h
  | succ f ih =>
    intro ls h
    rw [stepLoop]
    by_cases hlt : ls.ts.stepped.length < nMods
    · rw [if_pos hlt]
      exact ih _ (loopBody_callsIds patches time st ls h)
    · rw [if_neg hlt]; exact h

theorem stepLoop_unpatchedInv (patches : Patches) (time : ℚ) (st : StepType)
    (nMods : Nat) (id0 i0 : Nat)
    (hnp : ∀ p ∈ patches, p.2 ≠ ModuleKey.mk id0 (ModuleIOK.input i0)) :
    ∀ (fuel : Nat) (ls : LoopState),
    (∀ km ∈ ls.ts.mods, km.1.id = id0 → i0 < km.2.numInputs) →
    (∀ c ∈ ls.ts.calls, c.id = id0 → c.ins.get? i0 = some Val.nan) →
    ∀ c ∈ (stepLoop patches time st nMods fuel ls).ts.calls, c.id = id0 →
      c.ins.get? i0 = some Val.nan := by
  intro fuel
  induction fuel with
  | zero =>
    intro ls _ hInv
    rw [stepLoop]
    by_cases hlt : ls.ts.stepped.length < nMods
    · rw [if_pos hlt]; exact hInv
    · rw [if_neg hlt]; exact hInv
  | succ f ih =>
    intro ls hsh hInv
    rw [stepLoop]
    by_cases hlt : ls.ts.stepped.length < nMods
    · rw [if_pos hlt]
      refine ih _ ?_ (loopBody_unpatchedInv patches time st id0 i0 hnp ls hsh hInv)
      exact shape_prop_transfer _ _ (loopBody_shapes patches time st ls)
        (fun x => x.1.id = id0 → i0 < x.2.1) hsh
    · rw [if_neg hlt]; exact hInv

theorem stepLoop_c4Inv (patches : Patches) (time : ℚ) (st : StepType)
    (nMods : Nat) (srcKey : ModuleKey) (d1 i1 d2 i2 : Nat)
    (hfil1 : patches.filter (fun p => p.2 == ModuleKey.mk d1 (ModuleIOK.input i1)) =
      [(srcKey, ModuleKey.mk d1 (ModuleIOK.input i1))])
    (hfil2 : patches.filter (fun p => p.2 == ModuleKey.mk d2 (ModuleIOK.input i2)) =
      [(srcKey, ModuleKey.mk d2 (ModuleIOK.input i2))]) :
    ∀ (fuel : Nat) (ls : LoopState),
    srcKey.id ∈ ls.ts.stepped →
    (∀ km ∈ ls.ts.mods, km.1.id = d1 → i1 < km.2.numInputs) →
    (∀ km ∈ ls.ts.mods, km.1.id = d2 → i2 < km.2.numInputs) →
    C4Inv srcKey d1 i1 d2 i2 ls.ts.outs ls.ts.calls →
    C4Inv srcKey d1 i1 d2 i2
      (stepLoop patches time st nMods fuel ls).ts.outs
      (stepLoop patches time st nMods fuel ls).ts.calls := by
  intro fuel
  induction fuel with
  | zero =>
    intro ls _ _ _ hInv
    rw [stepLoop]
    by_cases hlt : ls.ts.stepped.length < nMods
    · rw [if_pos hlt]; exact hInv
    · rw [if_neg hlt]; exact hInv
  | succ f ih =>
    intro ls hsrc hsh1 hsh2 hInv
    rw [stepLoop]
    by_cases hlt : ls.ts.stepped.length < nMods
    · rw [if_pos hlt]
      refine ih _ (loopBody_stepped_mono patches time st ls _ hsrc) ?_ ?_
        (loopBody_c4Inv patches time st srcKey d1 i1 d2 i2 hfil1 hfil2 ls hsrc hsh1 hsh2 hInv)
      · exact shape_prop_transfer _ _ (loopBody_shapes patches time st ls)
          (fun x => x.1.id = d1 → i1 < x.2.1) hsh1
      · exact shape_prop_transfer _ _ (loopBody_shapes patches time st ls)
          (fun x => x.1.id = d2 → i2 < x.2.1) hsh2
    · rw [if_neg hlt]; exact hInv

theorem stepped_perm_ids (stepped ids0 : List Nat) (hnd : stepped.Nodup)
    (hsub : ∀ x ∈ stepped, x ∈ ids0) (hids : ids0.Nodup)
    (hlen : ids0.length ≤ stepped.length) : stepped.Perm ids0 := by
  have hsp : stepped.Subperm ids0 :=
    List.subperm_of_subset hnd (fun x hx => hsub x hx)
  obtain ⟨l, hperm, hsl⟩ := hsp
  have hl : l = ids0 := hsl.eq_of_length_le (by rw [hperm.length_eq]; exact hlen)
  rw [hl] at hperm
  exact hperm.symm

theorem stepLoop_completes_present (patches : Patches) (time : ℚ) (st : StepType)
    (ids0 : List Nat) (hids : ids0.Nodup) :
    ∀ (fuel : Nat) (ls : LoopState),
    1 ≤ fuel →
    (∀ p ∈ patches, outsContains ls.ts.outs p.1 = true) →
    ls.ts.stepped.Nodup →
    (∀ x ∈ ls.ts.stepped, x ∈ ids0) →
    modIds ls.ts.mods = ids0 →
    (stepLoop patches time st ids0.length fuel ls).exhausted = ls.exhausted ∧
    (stepLoop patches time st ids0.length fuel ls).ts.stepped.Perm ids0 := by
  intro fuel
  cases fuel with
  | zero => intro ls h; omega
  | succ f =>
    intro ls _ hpres hnd hsub hmid
    rw [stepLoop]
    by_cases hlt : ls.ts.stepped.length < ids0.length
    · rw [if_pos hlt]
      have hnd2 := loopBody_nodup patches time st ls hnd
      have hcov : ∀ x ∈ ids0, x ∈ (loopBody patches time st ls).ts.stepped := by
        intro x hx
        exact loopBody_complete patches time st ls hpres x (by rw [hmid]; exact hx)
      have hsub2 : ∀ x ∈ (loopBody patches time st ls).ts.stepped, x ∈ ids0 := by
        intro x hx
        rcases loopBody_stepped_sub patches time st ls x hx with h1 | h2
        · exact hsub x h1
        · rw [hmid] at h2; exact h2
      have hperm : (loopBody patches time st ls).ts.stepped.Perm ids0 := by
        refine stepped_perm_ids _ _ hnd2 hsub2 hids ?_
        exact (List.subperm_of_subset hids hcov).length_le
      have hdone : ¬(loopBody patches time st ls).ts.stepped.length < ids0.length := by
        rw [hperm.length_eq]
        omega
      rw [stepLoop_done patches time st ids0.length f _ hdone]
      exact ⟨loopBody_exhausted patches time st ls, hperm⟩
    · rw [if_neg hlt]
      exact ⟨rfl, stepped_perm_ids _ _ hnd hsub hids (by omega)⟩

theorem stepLoop_main (patches : Patches) (time : ℚ) (st : StepType)
    (ids0 : List Nat) (hids : ids0.Nodup) (ls : LoopState)
    (hnd : ls.ts.stepped.Nodup)
    (hsub : ∀ x ∈ ls.ts.stepped, x ∈ ids0)
    (hmid : modIds ls.ts.mods = ids0) :
    (stepLoop patches time st ids0.length (ids0.length + 1) ls).exhausted =
      ls.exhausted ∧
    (stepLoop patches time st ids0.length (ids0.length + 1) ls).ts.stepped.Perm
      ids0 := by
  rw [stepLoop]
  by_cases hlt : ls.ts.stepped.length < ids0.length
  · rw [if_pos hlt]
    have h1 : 1 ≤ ids0.length := by omega
    have hres := stepLoop_completes_present patches time st ids0 hids ids0.length
      (loopBody patches time st ls) h1
      (loopBody_allPresent patches time st ls)
      (loopBody_nodup patches time st ls hnd)
      (fun x hx => by
        rcases loopBody_stepped_sub patches time st ls x hx with h1 | h2
        · exact hsub x h1
        · rw [hmid] at h2; exact h2)
      (by rw [modIds_of_shapes _ _ (loopBody_shapes patches time st ls)]; exact hmid)
    refine ⟨?_, hres.2⟩
    rw [hres.1]
    exact loopBody_exhausted patches time st ls
  · rw [if_neg hlt]
    exact ⟨rfl, stepped_perm_ids _ _ hnd hsub hids (by omega)⟩

/-! ## Lemmas about the knob-feedback pass -/

theorem knobApplyStep_len (outs : Outs) (m : Module) (p : ModuleKey × ModuleKey) :
    (knobApplyStep outs m p).knobs.length = m.knobs.length := by
  rw [knobApplyStep]
  cases outsFind outs p.1 with
  | none => rfl
  | some v =>
    cases p.2.iok with
    | none => rfl
    | input i => rfl
    | output i => rfl
    | knob i =>
      dsimp only
      by_cases hnan : v.isNaN = true
      · rw [if_pos hnan]
      · rw [if_neg hnan]
        simp [Module.set_knob]

theorem knobApply_go_len (outs : Outs) (ips : Patches) :
    ∀ m : Module, (ips.foldl (knobApplyStep outs) m).knobs.length = m.knobs.length := by
  induction ips with
  | nil => intro m; rfl
  | cons p ips ih =>
    intro m
    rw [List.foldl_cons, ih]
    exact knobApplyStep_len outs m p

theorem knobApply_go_preserved (outs : Outs) (i : Nat) (ips : Patches)
    (h : ∀ p ∈ ips, p.2.iok ≠ ModuleIOK.knob i) :
    ∀ m : Module, (ips.foldl (knobApplyStep outs) m).knobs.get? i = m.knobs.get? i := by
  induction ips with
  | nil => intro m; rfl
  | cons p ips ih =>
    intro m
    rw [List.foldl_cons]
    rw [ih (fun q hq => h q (List.mem_cons_of_mem p hq))]
    rw [knobApplyStep]
    cases outsFind outs p.1 with
    | none => rfl
    | some v =>
      cases hio : p.2.iok with
      | none => rfl
      | input j => rfl
      | output j => rfl
      | knob j =>
        dsimp only
        by_cases hnan : v.isNaN = true
        · rw [if_pos hnan]
        · rw [if_neg hnan]
          have hne : j ≠ i := by
            intro he
            exact h p (List.mem_cons_self p ips) (by rw [hio, he])
          rw [Module.set_knob]
          exact List.get?_set_ne v _ hne

theorem knobApply_get (outs : Outs) (w i : Nat) (sk : ModuleKey) (v : Val)
    (hfind : outsFind outs sk = some v) (hnan : v.isNaN = false)
    (ips : Patches) :
    ∀ m : Module,
    (∀ p ∈ ips, p.2.id = w) →
    ips.filter (fun p => p.2 == ModuleKey.mk w (ModuleIOK.knob i)) =
      [(sk, ModuleKey.mk w (ModuleIOK.knob i))] →
    i < m.knobs.length →
    (ips.foldl (knobApplyStep outs) m).knobs.get? i = some v := by
  induction ips with
  | nil => intro m _ hfil _; simp at hfil
  | cons p ips ih =>
    intro m hdest hfil hlen
    rw [List.filter_cons] at hfil
    by_cases hp : p.2 = ModuleKey.mk w (ModuleIOK.knob i)
    · rw [if_pos (by simp [hp])] at hfil
      simp only [List.cons.injEq] at hfil
      obtain ⟨hp1, hfil2⟩ := hfil
      have hrest : ∀ q ∈ ips, q.2.iok ≠ ModuleIOK.knob i := by
        intro q hq he
        have hqd : q.2 = ModuleKey.mk w (ModuleIOK.knob i) := by
          have hid := hdest q (List.mem_cons_of_mem p hq)
          cases hq2 : q.2 with
          | mk qid qiok =>
            rw [hq2] at hid he
            simp at hid he
            simp [hid, he]
        have hmem : q ∈ ips.filter (fun p => p.2 == ModuleKey.mk w (ModuleIOK.knob i)) :=
          List.mem_filter.mpr ⟨hq, by simp [hqd]⟩
        rw [hfil2] at hmem
        simp at hmem
      rw [List.foldl_cons]
      rw [knobApply_go_preserved outs i ips hrest]
      have hp1a : p.1 = sk := by
        have := congrArg Prod.fst hp1
        simpa using this
      rw [knobApplyStep, hp1a, hfind, hp]
      dsimp only
      rw [if_neg (by rw [hnan]; exact Bool.false_ne_true)]
      rw [Module.set_knob]
      dsimp only
      exact List.get?_set_eq_of_lt v hlen
    · rw [if_neg (by simp [hp])] at hfil
      rw [List.foldl_cons]
      refine ih (knobApplyStep outs m p)
        (fun q hq => hdest q (List.mem_cons_of_mem p hq)) hfil ?_
      rw [knobApplyStep_len]
      exact hlen

theorem knobFeedback_knob (patches : Patches) (outs : Outs) (w i : Nat)
    (sk : ModuleKey) (v : Val)
    (hfil : patches.filter (fun p => p.2 == ModuleKey.mk w (ModuleIOK.knob i)) =
      [(sk, ModuleKey.mk w (ModuleIOK.knob i))])
    (hfind : outsFind outs sk = some v) (hnan : v.isNaN = false)
    (mods : List (ModuleKey × Module))
    (hsh : ∀ km ∈ mods, km.1.id = w → i < km.2.knobs.length) :
    ∀ km2 ∈ knobFeedback patches outs mods, km2.1.id = w →
      km2.2.knobs.get? i = some v := by
  have hpmem : (sk, ModuleKey.mk w (ModuleIOK.knob i)) ∈ patches := by
    have hm : (sk, ModuleKey.mk w (ModuleIOK.knob i)) ∈
        patches.filter (fun p => p.2 == ModuleKey.mk w (ModuleIOK.knob i)) := by
      rw [hfil]
      exact List.mem_singleton_self _
    exact (List.mem_filter.mp hm).1
  rw [knobFeedback]
  have hgo : ∀ (l : List (ModuleKey × Module)) (acc : List (ModuleKey × Module)),
      (∀ km ∈ l, km.1.id = w → i < km.2.knobs.length) →
      (∀ km2 ∈ acc, km2.1.id = w → km2.2.knobs.get? i = some v) →
      ∀ km2 ∈ l.foldl (fun acc km =>
        if patches.any (fun p => p.2.id == km.1.id && p.2.iok.is_knob) then
          acc ++ [(km.1, knobApply outs km.2 (inPatches patches km.1.id))]
        else acc ++ [km]) acc, km2.1.id = w → km2.2.knobs.get? i = some v := by
    intro l
    induction l with
    | nil => intro acc _ hacc; exact hacc
    | cons km l ih =>
      intro acc hsh2 hacc
      rw [List.foldl_cons]
      by_cases hany : patches.any (fun p => p.2.id == km.1.id && p.2.iok.is_knob) = true
      · rw [if_pos hany]
        refine ih _ (fun q hq => hsh2 q (List.mem_cons_of_mem km hq)) ?_
        intro km2 hm2 hid2
        rcases List.mem_append.mp hm2 with hold | hnew
        · exact hacc km2 hold hid2
        · have hkm2 : km2 = (km.1, knobApply outs km.2 (inPatches patches km.1.id)) := by
            simpa using hnew
          subst hkm2
          have hkid : km.1.id = w := hid2
          rw [knobApply]
          refine knobApply_get outs w i sk v hfind hnan _ km.2 ?_ ?_
            (hsh2 km (List.mem_cons_self km l) hkid)
          · intro p hp
            have := (List.mem_filter.mp hp).2
            simpa [hkid] using this
          · rw [hkid]
            rw [inPatches_filter patches w (ModuleKey.mk w (ModuleIOK.knob i)) rfl]
            exact hfil
      · rw [if_neg hany]
        refine ih _ (fun q hq => hsh2 q (List.mem_cons_of_mem km hq)) ?_
        intro km2 hm2 hid2
        rcases List.mem_append.mp hm2 with hold | hnew
        · exact hacc km2 hold hid2
        · have hkm2 : km2 = km := by simpa using hnew
          subst hkm2
          exfalso
          refine hany ?_
          rw [List.any_eq_true]
          refine ⟨(sk, ModuleKey.mk w (ModuleIOK.knob i)), hpmem, ?_⟩
          simp [hid2, ModuleIOK.is_knob]
  exact hgo mods [] hsh (fun km2 hm2 => by simp at hm2)

/-! ## Projections of one tick -/

theorem Rack_step_exhausted (r : Rack) (time : ℚ) (st : StepType) :
    (r.step time st).exhausted =
      (stepLoop r.patches time st r.modules.length (r.modules.length + 1)
        ⟨passZero r.patches time st r.modules r.outs, [], false⟩).exhausted := rfl

theorem Rack_step_calls (r : Rack) (time : ℚ) (st : StepType) :
    (r.step time st).calls =
      (stepLoop r.patches time st r.modules.length (r.modules.length + 1)
        ⟨passZero r.patches time st r.modules r.outs, [], false⟩).ts.calls := rfl

theorem Rack_step_outsPre (r : Rack) (time : ℚ) (st : StepType) :
    (r.step time st).outsPre =
      (stepLoop r.patches time st r.modules.length (r.modules.length + 1)
        ⟨passZero r.patches time st r.modules r.outs, [], false⟩).ts.outs := rfl

theorem Rack_step_outs (r : Rack) (time : ℚ) (st : StepType) :
    (r.step time st).outs = (r.step time st).outsPre.filter (fun o => !o.2.isNaN) := rfl

theorem Rack_step_mods (r : Rack) (time : ℚ) (st : StepType) :
    (r.step time st).mods =
      knobFeedback r.patches (r.step time st).outsPre
        (stepLoop r.patches time st r.modules.length (r.modules.length + 1)
          ⟨passZero r.patches time st r.modules r.outs, [], false⟩).ts.mods := rfl

/-! ## Facts about the state after the zero-dependency pass -/

theorem passZero_stepped (patches : Patches) (time : ℚ) (st : StepType)
    (mods : List (ModuleKey × Module)) (outs : Outs) :
    (passZero patches time st mods outs).stepped =
      (mods.filter (fun km => passZeroCond patches km.1 km.2)).map
        (fun km => km.1.id) := by
  rw [passZero, passZero_go_stepped]
  rfl

theorem passZero_callsIds (patches : Patches) (time : ℚ) (st : StepType)
    (mods : List (ModuleKey × Module)) (outs : Outs) :
    (passZero patches time st mods outs).calls.map Call.id =
      (passZero patches time st mods outs).stepped := by
  rw [passZero, passZero_go_calls, passZero_go_stepped]
  rw [List.nil_append, List.nil_append, List.map_map]
  rfl

theorem passZero_shapes (patches : Patches) (time : ℚ) (st : StepType)
    (mods : List (ModuleKey × Module)) (outs : Outs) :
    (passZero patches time st mods outs).mods.map shapeKV = mods.map shapeKV := by
  rw [passZero, passZero_go_shapes]
  rfl

theorem passZero_nodup (patches : Patches) (time : ℚ) (st : StepType)
    (mods : List (ModuleKey × Module)) (outs : Outs)
    (h : (modIds mods).Nodup) :
    (passZero patches time st mods outs).stepped.Nodup := by
  rw [passZero_stepped]
  refine List.Nodup.sublist ?_ h
  exact List.Sublist.map _ (List.filter_sublist mods)

theorem passZero_stepped_sub (patches : Patches) (time : ℚ) (st : StepType)
    (mods : List (ModuleKey × Module)) (outs : Outs) :
    ∀ x ∈ (passZero patches time st mods outs).stepped, x ∈ modIds mods := by
  rw [passZero_stepped]
  intro x hx
  obtain ⟨km, hm, he⟩ := List.mem_map.mp hx
  rw [← he]
  exact List.mem_map_of_mem _ (List.mem_of_mem_filter hm)

/-! ## Claim C1 -/

/-- C1: for every well-formed rack (distinct module ids, per the data model
`map<ModuleKey.id, Module>`), any patch table — including cycles through
Input and/or Knob ports — and any tick, the resolution loop exits by its own
condition within the structural fuel `modules.length + 1` (`exhausted` stays
`false`), and every module's `step` is called exactly once. -/
theorem c1_step_terminates_each_module_once (r : Rack) (time : ℚ)
    (st : StepType) (hwf : r.wfIds) :
    (r.step time st).exhausted = false ∧
    (r.step time st).calls.length = r.modules.length ∧
    ∀ km ∈ r.modules, ((r.step time st).calls.map Call.id).count km.1.id = 1 := by
  have hids : (modIds r.modules).Nodup := hwf
  have hlen : (modIds r.modules).length = r.modules.length := List.length_map _ _
  have hmain := stepLoop_main r.patches time st (modIds r.modules) hids
    ⟨passZero r.patches time st r.modules r.outs, [], false⟩
    (passZero_nodup r.patches time st r.modules r.outs hids)
    (passZero_stepped_sub r.patches time st r.modules r.outs)
    (modIds_of_shapes _ _ (passZero_shapes r.patches time st r.modules r.outs))
  rw [hlen] at hmain
  have hcallsIds := stepLoop_callsIds r.patches time st r.modules.length
    (r.modules.length + 1)
    ⟨passZero r.patches time st r.modules r.outs, [], false⟩
    (passZero_callsIds r.patches time st r.modules r.outs)
  refine ⟨?_, ?_, ?_⟩
  · rw [Rack_step_exhausted]
    exact hmain.1
  · rw [Rack_step_calls]
    have h1 := congrArg List.length hcallsIds
    rw [List.length_map] at h1
    rw [h1, hmain.2.length_eq, hlen]
  · intro km hm
    rw [Rack_step_calls, hcallsIds]
    rw [hmain.2.count_eq]
    exact List.count_eq_one_of_mem hids (List.mem_map_of_mem _ hm)

/-- Witness for C1: a two-module rack whose patches form a cycle through an
Input port and a Knob port (`0.O0 → 1.I0`, `1.O0 → 0.K0`). -/
theorem c1_step_terminates_witness :
    (Rack.wfIds ⟨[(⟨0, ModuleIOK.none⟩,
        ⟨1, [Val.num 0], 0, fun _ _ s _ _ => (s, [Val.num 2])⟩),
      (⟨1, ModuleIOK.none⟩,
        ⟨1, [], 0, fun _ _ s _ _ => (s, [Val.num 3])⟩)],
      [(⟨0, ModuleIOK.output 0⟩, ⟨1, ModuleIOK.input 0⟩),
       (⟨1, ModuleIOK.output 0⟩, ⟨0, ModuleIOK.knob 0⟩)], []⟩) ∧
    ((Rack.step ⟨[(⟨0, ModuleIOK.none⟩,
        ⟨1, [Val.num 0], 0, fun _ _ s _ _ => (s, [Val.num 2])⟩),
      (⟨1, ModuleIOK.none⟩,
        ⟨1, [], 0, fun _ _ s _ _ => (s, [Val.num 3])⟩)],
      [(⟨0, ModuleIOK.output 0⟩, ⟨1, ModuleIOK.input 0⟩),
       (⟨1, ModuleIOK.output 0⟩, ⟨0, ModuleIOK.knob 0⟩)], []⟩ 0 StepType.Key).exhausted = false ∧
     (Rack.step ⟨[(⟨0, ModuleIOK.none⟩,
        ⟨1, [Val.num 0], 0, fun _ _ s _ _ => (s, [Val.num 2])⟩),
      (⟨1, ModuleIOK.none⟩,
        ⟨1, [], 0, fun _ _ s _ _ => (s, [Val.num 3])⟩)],
      [(⟨0, ModuleIOK.output 0⟩, ⟨1, ModuleIOK.input 0⟩),
       (⟨1, ModuleIOK.output 0⟩, ⟨0, ModuleIOK.knob 0⟩)], []⟩ 0 StepType.Key).calls.length = 2) := by
  constructor
  · rw [Rack.wfIds]
    decide
  · have h := c1_step_terminates_each_module_once
      ⟨[(⟨0, ModuleIOK.none⟩,
          ⟨1, [Val.num 0], 0, fun _ _ s _ _ => (s, [Val.num 2])⟩),
        (⟨1, ModuleIOK.none⟩,
          ⟨1, [], 0, fun _ _ s _ _ => (s, [Val.num 3])⟩)],
        [(⟨0, ModuleIOK.output 0⟩, ⟨1, ModuleIOK.input 0⟩),
         (⟨1, ModuleIOK.output 0⟩, ⟨0, ModuleIOK.knob 0⟩)], []⟩ 0 StepType.Key
      (by rw [Rack.wfIds]; decide)
    exact ⟨h.1, h.2.1⟩

/-! ## Claim C2 -/

/-- C2 (code bug, `step_count += 0` at rack.rs:237): on the acyclic chain
rack, the first resolution scan steps one new module (module 1), yet the
iteration log records a nonempty NaN materialization (key `2M0O`) right
after it, and module 3 is subsequently stepped with a NaN input although no
cycle exists.  Under the claim, a scan that steps at least one new module is
never followed by NaN materialization. -/
theorem c2_step_count_bug_evaluation :
    (chainRack.step 0 StepType.Key).iters =
      [(1, [⟨2, ModuleIOK.output 0⟩]), (2, [])] ∧
    (chainRack.step 0 StepType.Key).calls.map (fun c => (c.id, c.ins)) =
      [(0, []), (1, [Val.num 10]), (3, [Val.nan]), (2, [Val.num 20])] := by
  exact ⟨by decide, by decide⟩

/-! ## Claim C3 -/

/-- C3 counterexample: a module with a declared input and no inbound patch
is stepped by the zero-dependency pass with `vec![0.0; m.inputs()]`
(rack.rs:194), so the unpatched port receives 0.0 and not NaN. -/
theorem c3_counterexample :
    (soloRack.step 0 StepType.Key).calls.map (fun c => (c.id, c.ins)) =
      [(0, [Val.num 0])] ∧ Val.num 0 ≠ Val.nan := by
  exact ⟨by decide, by decide⟩

theorem wf_id_unique (r : Rack) (hwf : r.wfIds) (k : ModuleKey) (m : Module)
    (hm : (k, m) ∈ r.modules) (km : ModuleKey × Module) (hkm : km ∈ r.modules)
    (hid : km.1.id = k.id) : km = (k, m) :=
  List.inj_on_of_nodup_map hwf hkm hm (by simpa using hid)

/-- C3 (amended): for a well-formed rack, an input port with no inbound
patch receives NaN on every tick whenever its module is stepped by the
iterative-resolution loop, i.e. whenever the module has at least one
declared input and some patch targets its id; a module stepped by the
zero-dependency pass instead receives 0.0 at every input position. -/
theorem c3_unpatched_input_is_nan (r : Rack) (time : ℚ) (st : StepType)
    (hwf : r.wfIds) (k : ModuleKey) (m : Module) (hm : (k, m) ∈ r.modules)
    (i0 : Nat) (hr : i0 < m.numInputs)
    (hin : hasInbound r.patches k.id = true)
    (hnp : ∀ p ∈ r.patches, p.2 ≠ ModuleKey.mk k.id (ModuleIOK.input i0)) :
    ∀ c ∈ (r.step time st).calls, c.id = k.id →
      c.ins.get? i0 = some Val.nan := by
  have hprop : ∀ km ∈ r.modules, km.1.id = k.id → i0 < km.2.numInputs := by
    intro km hkm hid
    rw [wf_id_unique r hwf k m hm km hkm hid]
    exact hr
  rw [Rack_step_calls]
  refine stepLoop_unpatchedInv r.patches time st r.modules.length k.id i0 hnp
    (r.modules.length + 1) ⟨passZero r.patches time st r.modules r.outs, [], false⟩
    ?_ ?_
  · exact shape_prop_transfer _ _ (passZero_shapes r.patches time st r.modules r.outs)
      (fun x => x.1.id = k.id → i0 < x.2.1) hprop
  · intro c hc hcid
    rw [passZero, passZero_go_calls] at hc
    rw [List.nil_append] at hc
    obtain ⟨km, hkm, hce⟩ := List.mem_map.mp hc
    exfalso
    have hcond : passZeroCond r.patches km.1 km.2 = true := (List.mem_filter.mp hkm).2
    have hkid : km.1.id = k.id := by
      rw [← hce] at hcid
      exact hcid
    rw [wf_id_unique r hwf k m hm km (List.mem_of_mem_filter hkm) hkid] at hcond
    rw [passZeroCond, hin] at hcond
    simp at hcond
    omega

/-- Witness for the amended C3 on `partialRack`: its module's recorded call
received NaN at the unpatched input position 0. -/
theorem c3_unpatched_input_is_nan_witness :
    ∃ c, c ∈ (partialRack.step 0 StepType.Key).calls ∧ c.id = 0 ∧
      c.ins.get? 0 = some Val.nan :=
  ⟨⟨0, [Val.nan, Val.nan], [Val.num 9]⟩, by decide, rfl,
    c3_unpatched_input_is_nan partialRack 0 StepType.Key (by rw [Rack.wfIds]; decide)
      (okey 0) (constMod 2 [Val.num 9]) (List.mem_singleton_self _) 0 (by decide)
      (by decide) (by decide)
      ⟨0, [Val.nan, Val.nan], [Val.num 9]⟩ (by decide) rfl⟩

/-! ## Claim C4 -/

/-- C4 counterexample: with the fan-out source in a self-feedback cycle and
iteration order `1, 0, 2`, destination 1 is stepped with the NaN placeholder
while destination 2 — stepped after the source — receives the source's real
output `1`, so the two destinations do not receive an identical value in the
same tick. -/
theorem c4_counterexample :
    (fanRack.step 0 StepType.Key).calls.map (fun c => (c.id, c.ins)) =
      [(1, [Val.nan]), (0, [Val.nan]), (2, [Val.num 1])] ∧
    Val.nan ≠ Val.num 1 := by
  exact ⟨by decide, by decide⟩

/-- C4 (amended): one output patched to two destination Input ports
delivers the identical value to both destinations within the tick, for
every map iteration order, provided the source module is stepped by the
zero-dependency pass (zero declared inputs, or no inbound patch at all) and
each destination input is fed only by that patch.  When the source sits
inside a dependency cycle the guarantee fails (see the counterexample). -/
theorem c4_fanout_identical (r : Rack) (time : ℚ) (st : StepType)
    (hwf : r.wfIds)
    (ks : ModuleKey) (ms : Module) (hs : (ks, ms) ∈ r.modules)
    (hcond : passZeroCond r.patches ks ms = true)
    (j d1 i1 d2 i2 : Nat)
    (kd1 : ModuleKey) (md1 : Module) (hd1 : (kd1, md1) ∈ r.modules)
    (hd1id : kd1.id = d1) (hr1 : i1 < md1.numInputs)
    (kd2 : ModuleKey) (md2 : Module) (hd2 : (kd2, md2) ∈ r.modules)
    (hd2id : kd2.id = d2) (hr2 : i2 < md2.numInputs)
    (hfil1 : r.patches.filter
        (fun p => p.2 == ModuleKey.mk d1 (ModuleIOK.input i1)) =
      [(ModuleKey.mk ks.id (ModuleIOK.output j),
        ModuleKey.mk d1 (ModuleIOK.input i1))])
    (hfil2 : r.patches.filter
        (fun p => p.2 == ModuleKey.mk d2 (ModuleIOK.input i2)) =
      [(ModuleKey.mk ks.id (ModuleIOK.output j),
        ModuleKey.mk d2 (ModuleIOK.input i2))]) :
    ∀ c1 ∈ (r.step time st).calls, ∀ c2 ∈ (r.step time st).calls,
      c1.id = d1 → c2.id = d2 → c1.ins.get? i1 = c2.ins.get? i2 := by
  have hprop1 : ∀ km ∈ r.modules, km.1.id = d1 → i1 < km.2.numInputs := by
    intro km hkm hid
    rw [wf_id_unique r hwf kd1 md1 hd1 km hkm (by rw [hid, hd1id])]
    exact hr1
  have hprop2 : ∀ km ∈ r.modules, km.1.id = d2 → i2 < km.2.numInputs := by
    intro km hkm hid
    rw [wf_id_unique r hwf kd2 md2 hd2 km hkm (by rw [hid, hd2id])]
    exact hr2
  have hp1mem : (ModuleKey.mk ks.id (ModuleIOK.output j),
      ModuleKey.mk d1 (ModuleIOK.input i1)) ∈ r.patches := by
    have hx : (ModuleKey.mk ks.id (ModuleIOK.output j),
        ModuleKey.mk d1 (ModuleIOK.input i1)) ∈ r.patches.filter
        (fun p => p.2 == ModuleKey.mk d1 (ModuleIOK.input i1)) := by
      rw [hfil1]
      exact List.mem_singleton_self _
    exact (List.mem_filter.mp hx).1
  have hp2mem : (ModuleKey.mk ks.id (ModuleIOK.output j),
      ModuleKey.mk d2 (ModuleIOK.input i2)) ∈ r.patches := by
    have hx : (ModuleKey.mk ks.id (ModuleIOK.output j),
        ModuleKey.mk d2 (ModuleIOK.input i2)) ∈ r.patches.filter
        (fun p => p.2 == ModuleKey.mk d2 (ModuleIOK.input i2)) := by
      rw [hfil2]
      exact List.mem_singleton_self _
    exact (List.mem_filter.mp hx).1
  have hbase : ∀ km ∈ r.modules, passZeroCond r.patches km.1 km.2 = true →
      km.1.id ≠ d1 ∧ km.1.id ≠ d2 := by
    intro km hkm hc
    constructor
    · intro hid
      rw [wf_id_unique r hwf kd1 md1 hd1 km hkm (by rw [hid, hd1id])] at hc
      rw [passZeroCond] at hc
      have hin : hasInbound r.patches kd1.id = true := by
        rw [hasInbound, List.any_eq_true]
        exact ⟨_, hp1mem, by simp [hd1id]⟩
      rw [hin] at hc
      simp at hc
      omega
    · intro hid
      rw [wf_id_unique r hwf kd2 md2 hd2 km hkm (by rw [hid, hd2id])] at hc
      rw [passZeroCond] at hc
      have hin : hasInbound r.patches kd2.id = true := by
        rw [hasInbound, List.any_eq_true]
        exact ⟨_, hp2mem, by simp [hd2id]⟩
      rw [hin] at hc
      simp at hc
      omega
  have hInv0 : C4Inv (ModuleKey.mk ks.id (ModuleIOK.output j)) d1 i1 d2 i2
      (passZero r.patches time st r.modules r.outs).outs
      (passZero r.patches time st r.modules r.outs).calls := by
    intro c hc
    rw [passZero, passZero_go_calls, List.nil_append] at hc
    obtain ⟨km, hkm, hce⟩ := List.mem_map.mp hc
    have hcond2 : passZeroCond r.patches km.1 km.2 = true := (List.mem_filter.mp hkm).2
    have hne := hbase km (List.mem_of_mem_filter hkm) hcond2
    constructor
    · intro hid
      exfalso
      refine hne.1 ?_
      rw [← hce] at hid
      exact hid
    · intro hid
      exfalso
      refine hne.2 ?_
      rw [← hce] at hid
      exact hid
  have hsrc : ks.id ∈ (passZero r.patches time st r.modules r.outs).stepped := by
    rw [passZero_stepped]
    refine List.mem_map.mpr ⟨(ks, ms), ?_, rfl⟩
    exact List.mem_filter.mpr ⟨hs, hcond⟩
  have hInv := stepLoop_c4Inv r.patches time st r.modules.length
    (ModuleKey.mk ks.id (ModuleIOK.output j)) d1 i1 d2 i2 hfil1 hfil2
    (r.modules.length + 1)
    ⟨passZero r.patches time st r.modules r.outs, [], false⟩
    hsrc
    (shape_prop_transfer _ _ (passZero_shapes r.patches time st r.modules r.outs)
      (fun x => x.1.id = d1 → i1 < x.2.1) hprop1)
    (shape_prop_transfer _ _ (passZero_shapes r.patches time st r.modules r.outs)
      (fun x => x.1.id = d2 → i2 < x.2.1) hprop2)
    hInv0
  intro c1 hc1 c2 hc2 hid1 hid2
  rw [Rack_step_calls] at hc1 hc2
  obtain ⟨v1, hv1f, hv1g⟩ := (hInv c1 hc1).1 hid1
  obtain ⟨v2, hv2f, hv2g⟩ := (hInv c2 hc2).2 hid2
  rw [hv1f] at hv2f
  have hv : v1 = v2 := by injection hv2f
  rw [hv1g, hv2g, hv]

/-- Witness for the amended C4 on `fanOkRack`: the two destinations' calls
read identical values at the patched positions. -/
theorem c4_fanout_identical_witness :
    ∃ c1 c2, c1 ∈ (fanOkRack.step 0 StepType.Key).calls ∧
      c2 ∈ (fanOkRack.step 0 StepType.Key).calls ∧ c1.id = 1 ∧ c2.id = 2 ∧
      c1.ins.get? 0 = c2.ins.get? 0 :=
  ⟨⟨1, [Val.num 4], [Val.num 5]⟩, ⟨2, [Val.num 4], [Val.num 6]⟩,
    by decide, by decide, rfl, rfl,
    c4_fanout_identical fanOkRack 0 StepType.Key (by rw [Rack.wfIds]; decide)
      (okey 0) (constMod 0 [Val.num 4])
      (List.mem_cons_of_mem _ (List.mem_cons_self _ _)) (by decide)
      0 1 0 2 0
      (okey 1) (constMod 1 [Val.num 5]) (List.mem_cons_self _ _) rfl (by decide)
      (okey 2) (constMod 1 [Val.num 6])
      (List.mem_cons_of_mem _ (List.mem_cons_of_mem _ (List.mem_singleton_self _)))
      rfl (by decide)
      (by decide) (by decide)
      ⟨1, [Val.num 4], [Val.num 5]⟩ (by decide)
      ⟨2, [Val.num 4], [Val.num 6]⟩ (by decide) rfl rfl⟩

/-! ## Claim C5 -/

/-- C5 counterexample: in tick 1 the source resolves to `v = 0` and the
end-of-tick pass sets module 1's knob to 0; but in tick 2 the source steps
first and the pre-step knob application overwrites the knob with its new
value 1 before module 1 steps, so module 1's next step starts with knob 1,
not `v = 0` (its outputs report the knob value it observed). -/
theorem c5_counterexample :
    (knobRack.step 0 StepType.Key).mods.map (fun km => (km.1.id, km.2.knobs)) =
      [(0, []), (1, [Val.num 0])] ∧
    outsFind (knobRack.step 0 StepType.Key).outsPre ⟨0, ModuleIOK.output 0⟩ =
      some (Val.num 0) ∧
    ((knobRack.next (knobRack.step 0 StepType.Key)).step 1 StepType.Key).calls.map
        (fun c => (c.id, c.mouts)) = [(0, [Val.num 1]), (1, [Val.num 1])] ∧
    Val.num 1 ≠ Val.num 0 := by
  exact ⟨by decide, by decide, by decide, by decide⟩

/-- C5 (amended): if module W's Knob `i` is fed only by the patch from
source key `sk`, and the tick's pre-purge cache holds a non-NaN value `v`
for `sk`, then the end-of-tick knob-feedback pass applies `set_knob` with
`v`, so W's knob holds `v` at the end of the tick (equivalently at the
start of the next tick).  At the start of W's next step the knob holds the
source's then-current resolved value, which may differ when the source
re-steps before W in the next tick (see the counterexample). -/
theorem c5_knob_feedback_end_of_tick (r : Rack) (time : ℚ) (st : StepType)
    (hwf : r.wfIds) (w i : Nat) (sk : ModuleKey) (v : Val)
    (kw : ModuleKey) (mw : Module) (hw : (kw, mw) ∈ r.modules)
    (hwid : kw.id = w) (hlen : i < mw.knobs.length)
    (hfil : r.patches.filter
        (fun p => p.2 == ModuleKey.mk w (ModuleIOK.knob i)) =
      [(sk, ModuleKey.mk w (ModuleIOK.knob i))])
    (hfind : outsFind (r.step time st).outsPre sk = some v)
    (hnan : v.isNaN = false) :
    ∀ km ∈ (r.step time st).mods, km.1.id = w →
      km.2.knobs.get? i = some v := by
  have hprop : ∀ km ∈ r.modules, km.1.id = w → i < km.2.knobs.length := by
    intro km hkm hid
    rw [wf_id_unique r hwf kw mw hw km hkm (by rw [hid, hwid])]
    exact hlen
  rw [Rack_step_mods]
  refine knobFeedback_knob r.patches _ w i sk v hfil ?_ hnan _ ?_
  · exact hfind
  · have hshape : (stepLoop r.patches time st r.modules.length
        (r.modules.length + 1)
        ⟨passZero r.patches time st r.modules r.outs, [], false⟩).ts.mods.map shapeKV =
        r.modules.map shapeKV := by
      rw [stepLoop_shapes]
      exact passZero_shapes r.patches time st r.modules r.outs
    exact shape_prop_transfer _ _ hshape (fun x => x.1.id = w → i < x.2.2) hprop

/-- Witness for the amended C5 on `knobOkRack`: the end-of-tick module map
holds a module with id 1 whose knob 0 carries the source's value 3. -/
theorem c5_knob_feedback_witness :
    ∃ km, km ∈ (knobOkRack.step 0 StepType.Key).mods ∧ km.1.id = 1 ∧
      km.2.knobs.get? 0 = some (Val.num 3) := by
  have hone : (1 : Nat) ∈ (knobOkRack.step 0 StepType.Key).mods.map
      (fun km => km.1.id) := by
    have hids : (knobOkRack.step 0 StepType.Key).mods.map (fun km => km.1.id) =
        [0, 1] := by decide
    rw [hids]
    decide
  obtain ⟨km, hkm, hid⟩ := List.mem_map.mp hone
  refine ⟨km, hkm, hid, ?_⟩
  exact c5_knob_feedback_end_of_tick knobOkRack 0 StepType.Key
    (by rw [Rack.wfIds]; decide) 1 0 ⟨0, ModuleIOK.output 0⟩ (Val.num 3)
    (okey 1) ⟨0, [Val.num 99], 0, fun _ _ s k _ => (s, k)⟩
    (List.mem_cons_of_mem _ (List.mem_singleton_self _)) rfl (by decide)
    (by decide) (by decide) (by decide) km hkm hid

/-! ## Claim C8 -/

/-- C8: the `outs` cache holds no NaN entry after the end-of-tick purge, and
every entry of the incoming cache whose key is written by no call of the
tick survives the tick unchanged (it reaches the pre-purge cache as is, and,
being non-NaN, the purged cache as well). -/
theorem c8_outs_purged_and_persistent (r : Rack) (time : ℚ) (st : StepType)
    (k : ModuleKey) (v : Val)
    (hold : outsFind r.outs k = some v)
    (hnw : ∀ c ∈ (r.step time st).calls, c.writes k = false) :
    (∀ o ∈ (r.step time st).outs, o.2.isNaN = false) ∧
    outsFind (r.step time st).outsPre k = some v ∧
    (v.isNaN = false → outsFind (r.step time st).outs k = some v) := by
  have h2 : outsFind (r.step time st).outsPre k = some v := by
    rw [Rack_step_outsPre]
    have hps : outsFind (passZero r.patches time st r.modules r.outs).outs k = some v := by
      rcases passZero_go_frame r.patches time st r.modules ⟨[], r.outs, [], []⟩ k v hold
        with h1 | ⟨c, hc, hwr⟩
      · rw [passZero]
        exact h1
      · exfalso
        have hcm : c ∈ (r.step time st).calls := by
          rw [Rack_step_calls]
          refine stepLoop_calls_mono r.patches time st r.modules.length
            (r.modules.length + 1) _ c ?_
          rw [passZero]
          exact hc
        rw [hnw c hcm] at hwr
        exact Bool.false_ne_true hwr
    rcases stepLoop_frame r.patches time st r.modules.length (r.modules.length + 1)
      ⟨passZero r.patches time st r.modules r.outs, [], false⟩ k v hps
      with h1 | ⟨c, hc, hwr⟩
    · exact h1
    · exfalso
      have hcm : c ∈ (r.step time st).calls := by
        rw [Rack_step_calls]
        exact hc
      rw [hnw c hcm] at hwr
      exact Bool.false_ne_true hwr
  refine ⟨?_, h2, ?_⟩
  · intro o ho
    rw [Rack_step_outs] at ho
    have hp := (List.mem_filter.mp ho).2
    simpa using hp
  · intro hv
    rw [Rack_step_outs]
    exact outsFind_filter_nonNaN _ k v h2 hv

/-- Witness for C8 on `staleRack`. -/
theorem c8_outs_purged_witness :
    (∀ o ∈ (staleRack.step 0 StepType.Key).outs, o.2.isNaN = false) ∧
    outsFind (staleRack.step 0 StepType.Key).outsPre ⟨9, ModuleIOK.output 0⟩ =
      some (Val.num 7) ∧
    ((Val.num 7).isNaN = false →
      outsFind (staleRack.step 0 StepType.Key).outs ⟨9, ModuleIOK.output 0⟩ =
        some (Val.num 7)) :=
  c8_outs_purged_and_persistent staleRack 0 StepType.Key
    ⟨9, ModuleIOK.output 0⟩ (Val.num 7) (by decide) (by decide)

end Vince
